import Mathlib

/-! The page cache core of cmuDB: extendible hash table, LRU replacer, buffer pool manager.

A shallow embedding of `src/hash/extendible_hash.cpp`, `src/buffer/lru_replacer.cpp`
and `src/buffer/buffer_pool_manager.cpp`, followed by theorems about it.

Modelling conventions.

* Heap objects reached through pointers are addressed by natural numbers:
  a `std::shared_ptr<Bucket>` is an address into `ExtendibleHash.heap`, a `Page *`
  is an index into `BufferPoolManager.pages_`.
* `int` and `size_t` values are unbounded (`Nat`, `Int`).  The shifts `1 << depth`
  of the hash table are the ones of the source while the depth stays below 31, and
  a pin count stays an `int` while fewer than `2^31` pins are outstanding.
* `std::map<K, V>` is an association list with at most one entry per key; the order
  of its entries is not observable through `find`, `erase`, `operator[]`, `size`.
* Mutexes are not modelled: every public operation runs under its lock, so each is
  one atomic state transformer.
* A `while` loop that may run forever takes a bound on its number of iterations and
  returns `none` when the bound is reached.
-/

namespace cmudb

/-! ## Memory cells -/

/-- Store `v` at address `i` of a memory `f`. -/
def upd {α : Type} (f : Nat → α) (i : Nat) (v : α) : Nat → α :=
  fun j => if j = i then v else f j

/-! ## `std::map<K, V>` -/

/-- Lookup `items.find(key)`: the value stored under `key`, if any. -/
def mapFind {K V : Type} [DecidableEq K] (key : K) : List (K × V) → Option V
  | [] => none
  | kv :: rest => if kv.1 = key then some kv.2 else mapFind key rest

/-- Removal `items.erase(key)`. -/
def mapErase {K V : Type} [DecidableEq K] (key : K) (items : List (K × V)) : List (K × V) :=
  items.filter (fun kv => decide (kv.1 ≠ key))

/-- Assignment `items[key] = value`: overwrites the entry of `key` or creates it. -/
def mapSet {K V : Type} [DecidableEq K] (key : K) (value : V) (items : List (K × V)) :
    List (K × V) :=
  (key, value) :: mapErase key items

/-! ## Extendible hash table (`src/hash/extendible_hash.cpp`) -/

/-- A bucket: its local depth and its items. -/
structure Bucket (K V : Type) where
  localDepth : Nat
  items : List (K × V)

/-- The table.  `bucketDirectory` holds bucket addresses, `heap` the buckets
allocated by `std::make_shared<Bucket>`, `heapSize` their number (the next fresh
address).  `HashKey` is `std::hash<K>`. -/
structure ExtendibleHash (K V : Type) where
  HashKey : K → Nat
  bucketSizeLimit : Nat
  globalDepth : Nat
  bucketDirectory : List Nat
  heap : Nat → Bucket K V
  heapSize : Nat

namespace ExtendibleHash

variable {K V : Type} [DecidableEq K]

/-- Constructor `ExtendibleHash(size)`: depth 0 and one empty bucket of depth 0. -/
def init (HashKey : K → Nat) (size : Nat) : ExtendibleHash K V where
  HashKey := HashKey
  bucketSizeLimit := size
  globalDepth := 0
  bucketDirectory := [0]
  heap := fun _ => ⟨0, []⟩
  heapSize := 1

/-- Observer `GetGlobalDepth`. -/
def GetGlobalDepth (t : ExtendibleHash K V) : Nat := t.globalDepth

/-- Observer `GetLocalDepth(bucket_id)`. -/
def GetLocalDepth (t : ExtendibleHash K V) (bucket_id : Nat) : Nat :=
  (t.heap (t.bucketDirectory.getD bucket_id 0)).localDepth

/-- Helper `getBucket(key)`: the address stored at directory index
`HashKey(key) & ((1 << globalDepth) - 1)`.  The source computes the mask in `int`;
the mask here is the one of the source while the global depth is at most 30, and
`insertLoopChecked` marks the calls at a greater depth as undefined. -/
def getBucket (t : ExtendibleHash K V) (key : K) : Nat :=
  t.bucketDirectory.getD (t.HashKey key &&& ((1 <<< t.globalDepth) - 1)) 0

/-- Lookup `Find(key, value)`: `some v` stands for `true` with `value = v`. -/
def Find (t : ExtendibleHash K V) (key : K) : Option V :=
  mapFind key (t.heap (t.getBucket key)).items

/-- Deletion `Remove(key)`. -/
def Remove (t : ExtendibleHash K V) (key : K) : Bool × ExtendibleHash K V :=
  let targetBucket := t.getBucket key
  if (mapFind key (t.heap targetBucket).items).isNone then (false, t)
  else
    (true, { t with heap := (upd t.heap targetBucket
      { t.heap targetBucket with items := mapErase key (t.heap targetBucket).items }) })

/-- Directory doubling, lines 99-106 of `Insert`. -/
def growDirectory (t : ExtendibleHash K V) (targetBucket : Nat) : ExtendibleHash K V :=
  if (t.heap targetBucket).localDepth = t.globalDepth then
    { t with bucketDirectory := t.bucketDirectory ++ t.bucketDirectory,
             globalDepth := t.globalDepth + 1 }
  else t

/-- The loop of lines 114-118: every directory entry that holds `targetBucket` at an
index with the `mask` bit set is pointed to `newBucket`. -/
def repoint (dir : List Nat) (targetBucket newBucket mask : Nat) : List Nat :=
  (List.range dir.length).map fun i =>
    if dir.getD i 0 = targetBucket ∧ mask &&& i ≠ 0 then newBucket else dir.getD i 0

/-- One round of the rehash loop, lines 122-126, for one item of the split bucket. -/
def rehashItem (targetBucket newBucket : Nat) (t : ExtendibleHash K V) (item : K × V) :
    ExtendibleHash K V :=
  if t.getBucket item.1 ≠ targetBucket then
    let h1 := upd t.heap newBucket
      { t.heap newBucket with items := mapSet item.1 item.2 (t.heap newBucket).items }
    let h2 := upd h1 targetBucket
      { h1 targetBucket with items := mapErase item.1 (h1 targetBucket).items }
    { t with heap := h2 }
  else t

/-- Lines 108-118 of `Insert`: the local depth of `targetBucket` goes up by one, a
new bucket of that depth is allocated, and the directory entries of `targetBucket`
whose index has the bit `mask = 1 << localDepth` (old depth) set point to it.  The
source holds the mask in an `int`; the mask here is the one of the source while the
local depth is at most 30. -/
def addBucket (t : ExtendibleHash K V) (targetBucket : Nat) : ExtendibleHash K V :=
  let mask := 1 <<< (t.heap targetBucket).localDepth
  let h1 := upd t.heap targetBucket
    { t.heap targetBucket with localDepth := (t.heap targetBucket).localDepth + 1 }
  let newBucket := t.heapSize
  let h2 := upd h1 newBucket ⟨(h1 targetBucket).localDepth, []⟩
  { t with heap := h2,
           heapSize := t.heapSize + 1,
           bucketDirectory := repoint t.bucketDirectory targetBucket newBucket mask }

/-- The rehash loop, lines 121-127, over the items that `targetBucket` holds when
the loop starts.  The source iterates the map itself and erases from it in the body
of the loop; this is the loop of the source when it moves no item (`rehashDefined`,
`rehash_eq_self`), and the loop that moves an item is undefined in the source
(`insertLoopChecked`). -/
def rehash (t : ExtendibleHash K V) (targetBucket newBucket : Nat) : ExtendibleHash K V :=
  (t.heap targetBucket).items.foldl (rehashItem targetBucket newBucket) t

/-- The body of the `while` loop of `Insert`, lines 99-127: split `targetBucket`. -/
def splitBucket (t : ExtendibleHash K V) (targetBucket : Nat) : ExtendibleHash K V :=
  let t1 := growDirectory t targetBucket
  rehash (addBucket t1 targetBucket) targetBucket t1.heapSize

/-- The `while` loop of `Insert`, lines 96-130, run for at most `fuel` rounds:
`none` when the bucket of `key` is still full after `fuel` splits. -/
def insertLoop : Nat → ExtendibleHash K V → K → Option (ExtendibleHash K V)
  | 0, t, key =>
    if (t.heap (t.getBucket key)).items.length = t.bucketSizeLimit then none else some t
  | fuel + 1, t, key =>
    if (t.heap (t.getBucket key)).items.length = t.bucketSizeLimit then
      insertLoop fuel (splitBucket t (t.getBucket key)) key
    else some t

/-- The final assignment of `Insert`, line 132. -/
def addKey (t : ExtendibleHash K V) (key : K) (value : V) : ExtendibleHash K V :=
  let targetBucket := t.getBucket key
  { t with heap := (upd t.heap targetBucket
    { t.heap targetBucket with items := mapSet key value (t.heap targetBucket).items }) }

/-- Insertion `Insert(key, value)` with at most `fuel` splits. -/
def Insert (fuel : Nat) (t : ExtendibleHash K V) (key : K) (value : V) :
    Option (ExtendibleHash K V) :=
  (insertLoop fuel t key).map fun t1 => addKey t1 key value

/-- Tables built from the empty table of bucket capacity at least 1 by `Insert`
calls that return and by `Remove` calls. -/
inductive Reachable : ExtendibleHash K V → Prop
  | init (HashKey : K → Nat) (size : Nat) (hsize : 1 ≤ size) : Reachable (init HashKey size)
  | insert {t t1 : ExtendibleHash K V} (fuel : Nat) (key : K) (value : V) :
      Reachable t → Insert fuel t key value = some t1 → Reachable t1
  | remove {t : ExtendibleHash K V} (key : K) : Reachable t → Reachable (Remove t key).2

/-- Well-formed tables: the directory has `2 ^ globalDepth` entries and each entry is
the address of an allocated bucket. -/
structure WF (t : ExtendibleHash K V) : Prop where
  length_directory : t.bucketDirectory.length = 2 ^ t.globalDepth
  allocated : ∀ b ∈ t.bucketDirectory, b < t.heapSize

/-- The table of bucket capacity 1 after `Insert(0, 10)`; keys hash to themselves. -/
def tableOne : ExtendibleHash Nat Nat := addKey (init id 1) 0 10

/-- The table of bucket capacity 2 after `Insert(0, 10)` and `Insert(1, 11)`; keys
hash to themselves. -/
def tableTwo : ExtendibleHash Nat Nat := addKey (addKey (init id 2) 0 10) 1 11

/-- Observer `GetNumBuckets`: the loop over the directory counts the indices `i` whose
bucket has the global depth as local depth or for which `(1 << localDepth) & i` is 0. -/
def GetNumBuckets (t : ExtendibleHash K V) : Nat :=
  (List.range t.bucketDirectory.length).foldl
    (fun nBuckets i =>
      if (t.heap (t.bucketDirectory.getD i 0)).localDepth = t.globalDepth ∨
          (1 <<< (t.heap (t.bucketDirectory.getD i 0)).localDepth) &&& i = 0
      then nBuckets + 1 else nBuckets) 0

/-- The number of distinct buckets that the directory references (the words of the
specification for `NumBuckets`): the directory without its repeated addresses. -/
def distinctBuckets (t : ExtendibleHash K V) : Nat := t.bucketDirectory.dedup.length

/-- The table of bucket capacity 2 after `Insert` of the keys 0, 4, 8 and 12; keys hash
to themselves.  The third insert splits the first bucket three times. -/
def tableDeep : ExtendibleHash Nat Nat :=
  addKey (splitBucket (splitBucket (splitBucket
    (addKey (addKey (init id 2) 0 10) 4 14) 0) 0) 0) 8 18 |>.addKey 12 22

/-- The local depth of the bucket at directory index `i`. -/
def depthAt (t : ExtendibleHash K V) (i : Nat) : Nat :=
  (t.heap (t.bucketDirectory.getD i 0)).localDepth

/-- The invariant of the table.  The directory is well formed; local depths are at
most the global depth; two directory indices hold the same bucket exactly when they
agree on the low `localDepth` bits; a key stored in a bucket is one that `getBucket`
sends to this bucket; no bucket holds a key twice. -/
structure Good (t : ExtendibleHash K V) : Prop where
  wf : WF t
  depth_le : ∀ i, i < t.bucketDirectory.length → t.depthAt i ≤ t.globalDepth
  same_bucket : ∀ i j, i < t.bucketDirectory.length → j < t.bucketDirectory.length →
    (t.bucketDirectory.getD i 0 = t.bucketDirectory.getD j 0 ↔
      i % 2 ^ t.depthAt i = j % 2 ^ t.depthAt i)
  home : ∀ a key, (mapFind key (t.heap a).items).isSome = true → t.getBucket key = a
  nodup : ∀ a, ((t.heap a).items.map Prod.fst).Nodup

/-- Some bucket of the directory has the global depth as local depth. -/
def DepthMax (t : ExtendibleHash K V) : Prop :=
  ∃ i, i < t.bucketDirectory.length ∧ t.depthAt i = t.globalDepth

end ExtendibleHash

/-! ## The split loop of `Insert` with its undefined steps -/

/-- What a call does: it returns a result, it is still running when the bound on the
number of rounds is used up, or it has reached a step whose behaviour C++ leaves
undefined. -/
inductive Outcome (α : Type) where
  | returns (a : α)
  | running
  | undefined

namespace ExtendibleHash

variable {K V : Type} [DecidableEq K]

/-- The shifts `1 << globalDepth` of `getBucket` (line 141) and `1 << localDepth` of
`Insert` (line 108) are computed in `int`, 32 bits wide: for a depth of at most 30
the value is `2 ^ depth`, as in `getBucket` and `addBucket`; from depth 31 on the
shift, or the subtraction of 1 from its value, overflows `int`. -/
def shiftDefined (depth : Nat) : Bool := decide (depth < 31)

/-- The rehash loop (lines 121-127) is a range-for over `targetBucket->items` whose
body calls `targetBucket->items.erase(item.first)` for an item that `getBucket` sends
to another bucket.  The erase invalidates the iterator of the loop, which the loop
increments next.  The loop is defined when `getBucket` sends every item of
`targetBucket` to `targetBucket`; it then moves no item.  Argument `t` is the table
when the loop starts. -/
def rehashDefined (t : ExtendibleHash K V) (targetBucket : Nat) : Bool :=
  (t.heap targetBucket).items.all fun item => decide (t.getBucket item.1 = targetBucket)

/-- The rehash loop, lines 121-127, when the iterator of its range-for yields the
items `visited`, in this order. -/
def rehashOver (t : ExtendibleHash K V) (targetBucket newBucket : Nat)
    (visited : List (K × V)) : ExtendibleHash K V :=
  visited.foldl (rehashItem targetBucket newBucket) t

/-- The `while` loop of `Insert`, lines 96-130, run for at most `fuel` rounds, with
the steps that C++ leaves undefined made explicit: a call of `getBucket` at a global
depth of 31 or more, the mask of line 108 at a local depth of 31 or more, and a rehash
loop that erases the item its iterator refers to. -/
def insertLoopChecked : Nat → ExtendibleHash K V → K → Outcome (ExtendibleHash K V)
  | 0, t, key =>
    if shiftDefined t.globalDepth = false then Outcome.undefined
    else if (t.heap (t.getBucket key)).items.length = t.bucketSizeLimit then Outcome.running
    else Outcome.returns t
  | fuel + 1, t, key =>
    if shiftDefined t.globalDepth = false then Outcome.undefined
    else if (t.heap (t.getBucket key)).items.length = t.bucketSizeLimit then
      let targetBucket := t.getBucket key
      let t1 := growDirectory t targetBucket
      if shiftDefined (t1.heap targetBucket).localDepth = false then Outcome.undefined
      else
        let t2 := addBucket t1 targetBucket
        if shiftDefined t2.globalDepth = false then Outcome.undefined
        else if rehashDefined t2 targetBucket = false then Outcome.undefined
        else insertLoopChecked fuel (rehash t2 targetBucket t1.heapSize) key
    else Outcome.returns t

/-- Insertion `Insert(key, value)` with at most `fuel` splits and the undefined steps
made explicit. -/
def InsertChecked (fuel : Nat) (t : ExtendibleHash K V) (key : K) (value : V) :
    Outcome (ExtendibleHash K V) :=
  match insertLoopChecked fuel t key with
  | Outcome.returns t1 => Outcome.returns (addKey t1 key value)
  | Outcome.running => Outcome.running
  | Outcome.undefined => Outcome.undefined

/-- The table of bucket capacity 4 after `Insert` of the keys 3, 2, 6 and 5; keys hash
to themselves.  The four keys are in the one bucket of the table, which is full. -/
def tableFour : ExtendibleHash Nat Nat :=
  addKey (addKey (addKey (addKey (init id 4) 3 30) 2 20) 6 60) 5 50

/-- The table that `Insert(7, 70)` leaves from `tableFour` when the iterator of the
rehash loop yields the keys 2, 3 and 6.  The map of the bucket iterates its keys in
the order 2, 3, 5, 6; the loop erases key 3 while its iterator refers to it, and the
iterator of a red-black tree built by inserting 3, 2, 6 and 5 then goes on to key 6,
the right child that the erased node had, and skips key 5. -/
def tableFourSkipped : ExtendibleHash Nat Nat :=
  addKey (rehashOver (addBucket (growDirectory tableFour 0) 0) 0 1
    [(2, 20), (3, 30), (6, 60)]) 7 70

end ExtendibleHash

/-! ## LRU replacer (`src/buffer/lru_replacer.cpp`) -/

/-- The replacer.  `lst` is the `std::list`, most recently inserted value first.
The member `map` sends each value of `lst` to its position in `lst`, so
`map.find(value) != map.end()` is membership in `lst`. -/
structure LRUReplacer (T : Type) where
  lst : List T

namespace LRUReplacer

variable {T : Type} [DecidableEq T]

/-- Constructor `LRUReplacer()`. -/
def init : LRUReplacer T := ⟨[]⟩

/-- Method `Insert(value)`: drop the old position of `value`, if any, and put it in front. -/
def Insert (r : LRUReplacer T) (value : T) : LRUReplacer T :=
  ⟨value :: (if value ∈ r.lst then r.lst.erase value else r.lst)⟩

/-- Method `Victim(value)`: `none` stands for `false`; otherwise the last element is
removed and returned. -/
def Victim (r : LRUReplacer T) : Option T × LRUReplacer T :=
  match r.lst.getLast? with
  | none => (none, r)
  | some v => (some v, ⟨r.lst.dropLast⟩)

/-- Method `Erase(value)`. -/
def Erase (r : LRUReplacer T) (value : T) : Bool × LRUReplacer T :=
  if value ∈ r.lst then (true, ⟨r.lst.erase value⟩) else (false, r)

/-- Method `Size()`. -/
def Size (r : LRUReplacer T) : Nat := r.lst.length

end LRUReplacer

/-! ## Histories of the LRU replacer -/

/-- The calls of a client of the replacer. -/
inductive LRUOp (T : Type) where
  | insert (value : T)
  | victim
  | erase (value : T)
  deriving DecidableEq

namespace LRUReplacer

variable {T : Type} [DecidableEq T]

/-- The state after one call. -/
def step (r : LRUReplacer T) : LRUOp T → LRUReplacer T
  | LRUOp.insert value => r.Insert value
  | LRUOp.victim => r.Victim.2
  | LRUOp.erase value => (r.Erase value).2

/-- The state after a sequence of calls, first call first. -/
def run (r : LRUReplacer T) (ops : List (LRUOp T)) : LRUReplacer T :=
  ops.foldl step r

/-- The values that the `Victim` calls of a sequence of calls return, in order. -/
def outputs : LRUReplacer T → List (LRUOp T) → List (Option T)
  | _, [] => []
  | r, LRUOp.victim :: ops => r.Victim.1 :: outputs r.Victim.2 ops
  | r, op :: ops => outputs (r.step op) ops

/-- The values that `n` successive `Victim` calls return, up to the first call that
returns false. -/
def victims : Nat → LRUReplacer T → List T
  | 0, _ => []
  | n + 1, r =>
    match r.Victim with
    | (none, _) => []
    | (some v, r1) => v :: victims n r1

/-- The position (from 1) of the last `Insert(value)` in a history of calls, 0 when
there is none. -/
def lastInsert (ops : List (LRUOp T)) (value : T) : Nat :=
  ops.length - ops.reverse.indexOf (LRUOp.insert value)

/-- States reached from a freshly constructed replacer. -/
def Reachable (r : LRUReplacer T) : Prop := ∃ ops, r = run init ops

end LRUReplacer

/-! ## Collaborators of the buffer pool that are not in `src/` -/

/-- Page identifiers, `page_id_t` of `common/config.h`. -/
abbrev page_id_t := Int

/-- Modelled from the spec: the constant `INVALID_PAGE_ID` of `common/config.h`, the
reserved sentinel that denotes "no page". -/
def INVALID_PAGE_ID : page_id_t := -1

/-- Modelled from the spec: the class `Page` of `page/page.h`: a payload buffer
(of an arbitrary type `D` whose `0` is the zeroed buffer) and the metadata
`page_id_`, `pin_count_`, `is_dirty_`. -/
structure Page (D : Type) where
  data_ : D
  page_id_ : page_id_t
  pin_count_ : Int
  is_dirty_ : Bool

namespace Page

variable {D : Type} [Zero D]

/-- Modelled from the spec: the constructor `Page()` of `page/page.h`: an empty
frame has no page, no pin, is clean and zeroed. -/
def init : Page D := ⟨0, INVALID_PAGE_ID, 0, false⟩

/-- Modelled from the spec: `Page::ResetMemory()` of `page/page.h` zeroes the payload. -/
def ResetMemory (p : Page D) : Page D := { p with data_ := 0 }

end Page

/-- The calls a disk manager receives. -/
inductive DiskCall (D : Type) where
  | ReadPage (page_id : page_id_t)
  | WritePage (page_id : page_id_t) (data : D)
  | AllocatePage (page_id : page_id_t)
  | DeallocatePage (page_id : page_id_t)

/-- Modelled from the spec: the class `DiskManager` of `disk/disk_manager.h`:
`content` is the payload stored under each page id, `next_page_id` the next id
`AllocatePage` hands out, `calls` the calls received so far, oldest first. -/
structure DiskManager (D : Type) where
  content : page_id_t → D
  next_page_id : Nat
  calls : List (DiskCall D)

namespace DiskManager

variable {D : Type} [Zero D]

/-- Modelled from the spec: a disk on which nothing was written or allocated. -/
def init : DiskManager D := ⟨fun _ => 0, 0, []⟩

/-- Modelled from the spec: `ReadPage(page_id, buffer)` fills the buffer with the
page contents. -/
def ReadPage (d : DiskManager D) (page_id : page_id_t) : D × DiskManager D :=
  (d.content page_id, { d with calls := d.calls ++ [DiskCall.ReadPage page_id] })

/-- Modelled from the spec: `WritePage(page_id, buffer)` persists the buffer under
`page_id`. -/
def WritePage (d : DiskManager D) (page_id : page_id_t) (data : D) : DiskManager D :=
  { d with content := fun q => if q = page_id then data else d.content q,
           calls := d.calls ++ [DiskCall.WritePage page_id data] }

/-- Modelled from the spec: `AllocatePage()` returns a fresh id (0, 1, 2, ... as in
the end-to-end scenarios). -/
def AllocatePage (d : DiskManager D) : page_id_t × DiskManager D :=
  let page_id : page_id_t := (d.next_page_id : Int)
  (page_id, { d with next_page_id := d.next_page_id + 1,
                     calls := d.calls ++ [DiskCall.AllocatePage page_id] })

/-- Modelled from the spec: `DeallocatePage(page_id)` releases the id. -/
def DeallocatePage (d : DiskManager D) (page_id : page_id_t) : DiskManager D :=
  { d with calls := d.calls ++ [DiskCall.DeallocatePage page_id] }

end DiskManager

/-! ## Buffer pool manager (`src/buffer/buffer_pool_manager.cpp`) -/

/-- The page table `page_table_`, an `ExtendibleHash<page_id_t, Page *>`.  The pool
uses it through `Find`, `Insert` and `Remove` only, and is modelled over the finite
map from page ids to frame indices that these three methods present.  The keys of
the pool are integers, hashed to themselves, so that distinct keys have distinct
hashes and the split loop of `Insert` ends. -/
abbrev PageTable := List (page_id_t × Nat)

/-- The pool: `pages_` is the frame array (a `Page *` is an index below
`pool_size_`), `free_list_` the `std::list<Page *>`. -/
structure BufferPoolManager (D : Type) where
  pool_size_ : Nat
  pages_ : Nat → Page D
  page_table_ : PageTable
  replacer_ : LRUReplacer Nat
  free_list_ : List Nat
  disk_manager_ : DiskManager D

namespace BufferPoolManager

variable {D : Type} [Zero D]

/-- Constructor `BufferPoolManager(pool_size, disk_manager, log_manager)`: all
frames are on the free list, in index order. -/
def init (pool_size : Nat) (disk_manager : DiskManager D) : BufferPoolManager D where
  pool_size_ := pool_size
  pages_ := fun _ => Page.init
  page_table_ := []
  replacer_ := LRUReplacer.init
  free_list_ := List.range pool_size
  disk_manager_ := disk_manager

/-- Lines 78-80 and 203-205: write the frame `page` back if it is dirty. -/
def writeBack (s : BufferPoolManager D) (page : Nat) : DiskManager D :=
  if (s.pages_ page).is_dirty_ then
    s.disk_manager_.WritePage (s.pages_ page).page_id_ (s.pages_ page).data_
  else s.disk_manager_

/-- Lines 78-95 of `FetchPage`, once the frame `page` was chosen for replacement
(and taken off the free list or the replacer, which left the state `s`). -/
def fetchInto (s : BufferPoolManager D) (page_id : page_id_t) (page : Nat) :
    BufferPoolManager D :=
  let disk1 := writeBack s page
  let table1 := mapErase (s.pages_ page).page_id_ s.page_table_
  let replacer1 := (s.replacer_.Erase page).2
  let p1 := (s.pages_ page).ResetMemory
  let p2 := { p1 with page_id_ := page_id }
  let p3 := { p2 with pin_count_ := p2.pin_count_ + 1 }
  let rd := disk1.ReadPage page_id
  let p4 := { p3 with data_ := rd.1 }
  { s with pages_ := upd s.pages_ page p4,
           page_table_ := mapSet page_id page table1,
           replacer_ := replacer1,
           disk_manager_ := rd.2 }

/-- Method `FetchPage(page_id)`: the frame returned (`none` for `nullptr`) and the
new state. -/
def FetchPage (s : BufferPoolManager D) (page_id : page_id_t) :
    Option Nat × BufferPoolManager D :=
  if page_id = INVALID_PAGE_ID then (none, s)
  else
    match mapFind page_id s.page_table_ with
    | some page =>
      let p1 := { s.pages_ page with pin_count_ := (s.pages_ page).pin_count_ + 1 }
      (some page, { s with pages_ := upd s.pages_ page p1,
                           replacer_ := (s.replacer_.Erase page).2 })
    | none =>
      match s.free_list_ with
      | [] =>
        match s.replacer_.Victim with
        | (none, _) => (none, s)
        | (some page, replacer1) =>
          (some page, fetchInto { s with replacer_ := replacer1 } page_id page)
      | page :: rest => (some page, fetchInto { s with free_list_ := rest } page_id page)

/-- Method `UnpinPage(page_id, is_dirty)`. -/
def UnpinPage (s : BufferPoolManager D) (page_id : page_id_t) (is_dirty : Bool) :
    Bool × BufferPoolManager D :=
  match mapFind page_id s.page_table_ with
  | none => (false, s)
  | some page =>
    if (s.pages_ page).pin_count_ ≤ 0 then (false, s)
    else
      let p1 := { s.pages_ page with pin_count_ := (s.pages_ page).pin_count_ - 1 }
      let replacer1 := if p1.pin_count_ = (0 : Int) then s.replacer_.Insert page else s.replacer_
      let p2 := { p1 with is_dirty_ := is_dirty }
      (true, { s with pages_ := upd s.pages_ page p2, replacer_ := replacer1 })

/-- Method `FlushPage(page_id)`. -/
def FlushPage (s : BufferPoolManager D) (page_id : page_id_t) : Bool × BufferPoolManager D :=
  if page_id = INVALID_PAGE_ID then (false, s)
  else
    match mapFind page_id s.page_table_ with
    | none => (false, s)
    | some page =>
      let disk1 := s.disk_manager_.WritePage page_id (s.pages_ page).data_
      let p1 := { s.pages_ page with is_dirty_ := false }
      (true, { s with pages_ := upd s.pages_ page p1, disk_manager_ := disk1 })

/-- Method `DeletePage(page_id)`. -/
def DeletePage (s : BufferPoolManager D) (page_id : page_id_t) : Bool × BufferPoolManager D :=
  match mapFind page_id s.page_table_ with
  | none => (true, s)
  | some page =>
    if (s.pages_ page).pin_count_ ≠ 0 then (false, s)
    else
      let disk1 :=
        if (s.pages_ page).is_dirty_ then
          s.disk_manager_.WritePage page_id (s.pages_ page).data_
        else s.disk_manager_
      let table1 := mapErase page_id s.page_table_
      let replacer1 := (s.replacer_.Erase page).2
      let disk2 := disk1.DeallocatePage page_id
      let p1 := { s.pages_ page with page_id_ := INVALID_PAGE_ID }
      let p2 := { p1 with is_dirty_ := false }
      let p3 := { p2 with pin_count_ := 0 }
      let p4 := p3.ResetMemory
      (true, { s with pages_ := upd s.pages_ page p4,
                      page_table_ := table1,
                      replacer_ := replacer1,
                      free_list_ := s.free_list_ ++ [page],
                      disk_manager_ := disk2 })

/-- Lines 203-220 of `NewPage`, once the frame `page` was chosen (and taken off the
free list or the replacer, which left the state `s`): the new page id and the state. -/
def newInto (s : BufferPoolManager D) (page : Nat) : page_id_t × BufferPoolManager D :=
  let disk1 := writeBack s page
  let table1 := mapErase (s.pages_ page).page_id_ s.page_table_
  let al := disk1.AllocatePage
  let table2 := mapSet al.1 page table1
  let p1 := { s.pages_ page with page_id_ := al.1 }
  let p2 := { p1 with pin_count_ := 1 }
  let p3 := { p2 with is_dirty_ := false }
  let p4 := p3.ResetMemory
  (al.1, { s with pages_ := upd s.pages_ page p4,
                  page_table_ := table2,
                  disk_manager_ := al.2 })

/-- Method `NewPage(page_id)`: `none` for `nullptr`, otherwise the id stored in the
out parameter `page_id` and the frame returned; and the new state. -/
def NewPage (s : BufferPoolManager D) : Option (page_id_t × Nat) × BufferPoolManager D :=
  match s.free_list_ with
  | page :: rest =>
    let r := newInto { s with free_list_ := rest } page
    (some (r.1, page), r.2)
  | [] =>
    match s.replacer_.Victim with
    | (none, _) => (none, s)
    | (some page, replacer1) =>
      let r := newInto { s with replacer_ := replacer1 } page
      (some (r.1, page), r.2)

/-- The holder of a pin writes the payload `data` into the frame `page` (through
`Page::GetData()`). -/
def writeData (s : BufferPoolManager D) (page : Nat) (data : D) : BufferPoolManager D :=
  { s with pages_ := upd s.pages_ page { s.pages_ page with data_ := data } }

/-- The calls of a client of the pool: the five public methods, and a write into
the payload of a frame. -/
inductive Op (D : Type) where
  | fetch (page_id : page_id_t)
  | unpin (page_id : page_id_t) (is_dirty : Bool)
  | flush (page_id : page_id_t)
  | delete (page_id : page_id_t)
  | new
  | write (page : Nat) (data : D)

/-- The state after one call. -/
def step (s : BufferPoolManager D) : Op D → BufferPoolManager D
  | Op.fetch page_id => (s.FetchPage page_id).2
  | Op.unpin page_id is_dirty => (s.UnpinPage page_id is_dirty).2
  | Op.flush page_id => (s.FlushPage page_id).2
  | Op.delete page_id => (s.DeletePage page_id).2
  | Op.new => s.NewPage.2
  | Op.write page data => s.writeData page data

/-- The state after a sequence of calls, first call first. -/
def run (s : BufferPoolManager D) (ops : List (Op D)) : BufferPoolManager D :=
  ops.foldl step s

/-- States reached from a freshly constructed pool by calls of its clients. -/
def Reachable (s : BufferPoolManager D) : Prop :=
  ∃ (pool_size : Nat) (disk_manager : DiskManager D) (ops : List (Op D)),
    s = run (init pool_size disk_manager) ops

/-- The invariant of the pool.  The free list and the replacer hold distinct frames
of the pool and share none; pin counts are not negative, and a frame has pin count 0
exactly when it is on the free list or in the replacer; the page table sends a page
id only to a frame of the pool that carries this id, and never holds
`INVALID_PAGE_ID`; the frames of the free list carry `INVALID_PAGE_ID`. -/
structure Inv (s : BufferPoolManager D) : Prop where
  free_nodup : s.free_list_.Nodup
  free_lt : ∀ i ∈ s.free_list_, i < s.pool_size_
  repl_nodup : s.replacer_.lst.Nodup
  repl_lt : ∀ i ∈ s.replacer_.lst, i < s.pool_size_
  disjoint : ∀ i ∈ s.free_list_, i ∉ s.replacer_.lst
  pin_nonneg : ∀ i, i < s.pool_size_ → 0 ≤ (s.pages_ i).pin_count_
  idle_iff : ∀ i, i < s.pool_size_ →
    ((i ∈ s.free_list_ ∨ i ∈ s.replacer_.lst) ↔ (s.pages_ i).pin_count_ = 0)
  table : ∀ q i, mapFind q s.page_table_ = some i →
    i < s.pool_size_ ∧ (s.pages_ i).page_id_ = q ∧ q ≠ INVALID_PAGE_ID
  free_invalid : ∀ i ∈ s.free_list_, (s.pages_ i).page_id_ = INVALID_PAGE_ID

/-- The invariant in the middle of `FetchPage` and `NewPage`, when the frame `page`
has been taken off the free list or the replacer and not yet been pinned. -/
structure Taken (s : BufferPoolManager D) (page : Nat) : Prop where
  free_nodup : s.free_list_.Nodup
  free_lt : ∀ i ∈ s.free_list_, i < s.pool_size_
  repl_nodup : s.replacer_.lst.Nodup
  repl_lt : ∀ i ∈ s.replacer_.lst, i < s.pool_size_
  disjoint : ∀ i ∈ s.free_list_, i ∉ s.replacer_.lst
  pin_nonneg : ∀ i, i < s.pool_size_ → 0 ≤ (s.pages_ i).pin_count_
  page_lt : page < s.pool_size_
  page_free : page ∉ s.free_list_
  page_repl : page ∉ s.replacer_.lst
  page_pin : (s.pages_ page).pin_count_ = 0
  idle_iff : ∀ i, i < s.pool_size_ → i ≠ page →
    ((i ∈ s.free_list_ ∨ i ∈ s.replacer_.lst) ↔ (s.pages_ i).pin_count_ = 0)
  table : ∀ q i, mapFind q s.page_table_ = some i →
    i < s.pool_size_ ∧ (s.pages_ i).page_id_ = q ∧ q ≠ INVALID_PAGE_ID
  free_invalid : ∀ i ∈ s.free_list_, (s.pages_ i).page_id_ = INVALID_PAGE_ID

/-- A pool of one frame over an empty disk; payloads are natural numbers. -/
def poolOne : BufferPoolManager Nat := init 1 DiskManager.init

/-- A pool of three frames over an empty disk; payloads are natural numbers. -/
def poolThree : BufferPoolManager Nat := init 3 DiskManager.init

/-- The pool of one frame after page 0 was created, given the payload 7 and
unpinned dirty. -/
def poolOneDirty : BufferPoolManager Nat := run poolOne [Op.new, Op.write 0 7, Op.unpin 0 true]

end BufferPoolManager

/-! ## Theorems -/

/-! ## Memory and map lemmas -/

theorem upd_same {α : Type} (f : Nat → α) (i : Nat) (v : α) : upd f i v i = v := by
  simp [upd]

theorem upd_other {α : Type} (f : Nat → α) (i j : Nat) (v : α) (h : j ≠ i) :
    upd f i v j = f j := by
  simp [upd, h]

section MapLemmas

variable {K V : Type} [DecidableEq K]

theorem mapErase_cons (key : K) (kv : K × V) (rest : List (K × V)) :
    mapErase key (kv :: rest) = if kv.1 = key then mapErase key rest else kv :: mapErase key rest := by
  unfold mapErase
  by_cases h : kv.1 = key <;> simp [List.filter_cons, h]

theorem mapFind_mapErase (key k : K) (items : List (K × V)) :
    mapFind k (mapErase key items) = if k = key then none else mapFind k items := by
  induction items with
  | nil => simp [mapErase, mapFind]
  | cons kv rest ih =>
    rw [mapErase_cons]
    by_cases h1 : kv.1 = key
    · rw [if_pos h1, ih]
      by_cases h2 : k = key
      · simp [h2]
      · have h3 : ¬ kv.1 = k := fun h => h2 (h ▸ h1)
        simp [h2, mapFind, h3]
    · rw [if_neg h1]
      by_cases h3 : kv.1 = k
      · have h2 : ¬ k = key := fun h => h1 (h3.trans h)
        simp [mapFind, h3, h2]
      · simp [mapFind, h3, ih]

theorem mapFind_mapSet (key k : K) (value : V) (items : List (K × V)) :
    mapFind k (mapSet key value items) = if k = key then some value else mapFind k items := by
  by_cases h : k = key
  · simp [mapSet, mapFind, h]
  · have h2 : ¬ key = k := fun e => h e.symm
    simp [mapSet, mapFind, h, h2, mapFind_mapErase]

theorem mapErase_of_mapFind_none (key : K) (items : List (K × V))
    (h : mapFind key items = none) : mapErase key items = items := by
  induction items with
  | nil => rfl
  | cons kv rest ih =>
    rw [mapErase_cons]
    by_cases h1 : kv.1 = key
    · simp [mapFind, h1] at h
    · simp only [mapFind, h1, if_false] at h
      rw [if_neg h1, ih h]

end MapLemmas

namespace ExtendibleHash

variable {K V : Type} [DecidableEq K]

/-! ## Extendible hash table: shape of the directory -/

theorem repoint_length (dir : List Nat) (tb nb mask : Nat) :
    (repoint dir tb nb mask).length = dir.length := by
  simp [repoint]

theorem rehash_fold_fields (tb nb : Nat) (items : List (K × V)) (t : ExtendibleHash K V) :
    (items.foldl (rehashItem tb nb) t).bucketDirectory = t.bucketDirectory ∧
    (items.foldl (rehashItem tb nb) t).globalDepth = t.globalDepth ∧
    (items.foldl (rehashItem tb nb) t).HashKey = t.HashKey ∧
    (items.foldl (rehashItem tb nb) t).bucketSizeLimit = t.bucketSizeLimit ∧
    (items.foldl (rehashItem tb nb) t).heapSize = t.heapSize := by
  induction items generalizing t with
  | nil => simp
  | cons it rest ih =>
    rw [List.foldl_cons]
    obtain ⟨h1, h2, h3, h4, h5⟩ := ih (rehashItem tb nb t it)
    rw [h1, h2, h3, h4, h5]
    unfold rehashItem
    split <;> simp

omit [DecidableEq K] in
theorem growDirectory_length (t : ExtendibleHash K V) (tb : Nat)
    (h : t.bucketDirectory.length = 2 ^ t.globalDepth) :
    (growDirectory t tb).bucketDirectory.length = 2 ^ (growDirectory t tb).globalDepth := by
  unfold growDirectory
  split
  · simp [h, pow_succ]; ring
  · exact h

theorem rehash_fields (t : ExtendibleHash K V) (tb nb : Nat) :
    (rehash t tb nb).bucketDirectory = t.bucketDirectory ∧
    (rehash t tb nb).globalDepth = t.globalDepth ∧
    (rehash t tb nb).HashKey = t.HashKey ∧
    (rehash t tb nb).bucketSizeLimit = t.bucketSizeLimit ∧
    (rehash t tb nb).heapSize = t.heapSize :=
  rehash_fold_fields tb nb _ t

theorem splitBucket_length (t : ExtendibleHash K V) (tb : Nat)
    (h : t.bucketDirectory.length = 2 ^ t.globalDepth) :
    (splitBucket t tb).bucketDirectory.length = 2 ^ (splitBucket t tb).globalDepth := by
  unfold splitBucket
  simp only []
  rw [(rehash_fields _ tb _).1, (rehash_fields _ tb _).2.1]
  simp only [addBucket, repoint_length]
  exact growDirectory_length t tb h

theorem insertLoop_length (fuel : Nat) (t t1 : ExtendibleHash K V) (key : K)
    (h : t.bucketDirectory.length = 2 ^ t.globalDepth)
    (hl : insertLoop fuel t key = some t1) :
    t1.bucketDirectory.length = 2 ^ t1.globalDepth := by
  induction fuel generalizing t with
  | zero =>
    unfold insertLoop at hl
    split at hl
    · cases hl
    · cases hl; exact h
  | succ n ih =>
    unfold insertLoop at hl
    split at hl
    · exact ih _ (splitBucket_length t _ h) hl
    · cases hl; exact h

theorem Insert_eq_some (fuel : Nat) (t t1 : ExtendibleHash K V) (key : K) (value : V) :
    Insert fuel t key value = some t1 ↔
      ∃ t2, insertLoop fuel t key = some t2 ∧ addKey t2 key value = t1 := by
  unfold Insert
  exact Option.map_eq_some'

theorem Reachable.length_directory {t : ExtendibleHash K V} (h : Reachable t) :
    t.bucketDirectory.length = 2 ^ t.globalDepth := by
  induction h with
  | init HashKey size hsize => simp [ExtendibleHash.init]
  | @insert t t1 fuel key value _ hins ih =>
    obtain ⟨t2, hl, rfl⟩ := (Insert_eq_some fuel t t1 key value).1 hins
    simpa [addKey] using insertLoop_length fuel _ t2 key ih hl
  | remove key _ ih =>
    unfold Remove
    simp only []
    split
    · exact ih
    · exact ih

omit [DecidableEq K] in
theorem index_lt_of_length (t : ExtendibleHash K V) (key : K)
    (h : t.bucketDirectory.length = 2 ^ t.globalDepth) :
    t.HashKey key &&& ((1 <<< t.globalDepth) - 1) < t.bucketDirectory.length := by
  rw [h, Nat.one_shiftLeft, Nat.and_pow_two_sub_one_eq_mod]
  exact Nat.mod_lt _ (Nat.two_pow_pos _)

/-! ## Find after Insert and after Remove -/

theorem Find_addKey (t : ExtendibleHash K V) (key : K) (value : V) :
    (addKey t key value).Find key = some value := by
  simp [Find, addKey, getBucket, upd_same, mapFind_mapSet]

theorem tableOne_reachable : Reachable tableOne :=
  Reachable.insert 0 0 10 (Reachable.init id 1 (le_refl 1)) rfl

theorem tableTwo_reachable : Reachable tableTwo :=
  Reachable.insert 0 1 11 (Reachable.insert 0 0 10 (Reachable.init id 2 (by decide)) rfl) rfl

/-- Claim C8: On a table reachable from the empty table, when `Insert(key, value)` returns,
the directory index of `key` lies inside the directory and `Find(key)` finds `value`. -/
theorem Insert_then_Find (fuel : Nat) (t t1 : ExtendibleHash K V) (key : K) (value : V)
    (hr : Reachable t) (hins : Insert fuel t key value = some t1) :
    t1.HashKey key &&& ((1 <<< t1.globalDepth) - 1) < t1.bucketDirectory.length ∧
    t1.Find key = some value := by
  have hr1 : Reachable t1 := Reachable.insert fuel key value hr hins
  refine ⟨index_lt_of_length t1 key hr1.length_directory, ?_⟩
  obtain ⟨t2, _, rfl⟩ := (Insert_eq_some fuel t t1 key value).1 hins
  exact Find_addKey t2 key value

theorem Insert_then_Find_witness :
    ∃ t1, Insert 1 tableOne 1 11 = some t1 ∧ t1.Find 1 = some 11 ∧ t1.globalDepth = 1 :=
  ⟨_, rfl, (Insert_then_Find 1 tableOne _ 1 11 tableOne_reachable rfl).2, rfl⟩

/-- Claim C10: `Remove(key)` returns true exactly when `Find(key)` found the key; afterwards
`Find(key)` finds nothing, and the global depth, the directory, every local depth and
`Find` of every other key are as before. -/
theorem Remove_spec (t : ExtendibleHash K V) (key : K) :
    ((t.Remove key).1 = true ↔ (t.Find key).isSome = true) ∧
    (t.Remove key).2.Find key = none ∧
    (t.Remove key).2.globalDepth = t.globalDepth ∧
    (t.Remove key).2.bucketDirectory = t.bucketDirectory ∧
    (∀ a, ((t.Remove key).2.heap a).localDepth = (t.heap a).localDepth) ∧
    (∀ k, k ≠ key → (t.Remove key).2.Find k = t.Find k) := by
  have hg : ∀ (h : Nat → Bucket K V) (k : K), getBucket { t with heap := h } k = t.getBucket k :=
    fun _ _ => rfl
  unfold Remove Find
  simp only []
  cases h : mapFind key (t.heap (t.getBucket key)).items with
  | none => simp [h]
  | some v =>
    simp only [Option.isNone_some, Bool.false_eq_true, if_false, Option.isSome_some, hg,
      upd_same, mapFind_mapErase, if_true, true_and]
    refine ⟨?_, ?_⟩
    · intro a
      by_cases ha : a = t.getBucket key
      · subst ha; simp [upd_same]
      · rw [upd_other _ _ _ _ ha]
    · intro k hk
      by_cases hb : t.getBucket k = t.getBucket key
      · rw [hb, upd_same]
        simp [mapFind_mapErase, hk]
      · rw [upd_other _ _ _ _ hb]

omit [DecidableEq K] in
theorem WF.getBucket_mem {t : ExtendibleHash K V} (h : WF t) (key : K) :
    t.getBucket key ∈ t.bucketDirectory := by
  unfold getBucket
  have hi := index_lt_of_length t key h.length_directory
  rw [List.getD_eq_getElem _ _ hi]
  exact List.getElem_mem _

omit [DecidableEq K] in
theorem getBucket_growDirectory (t : ExtendibleHash K V) (tb : Nat) (key : K)
    (h : t.bucketDirectory.length = 2 ^ t.globalDepth) :
    (growDirectory t tb).getBucket key = t.getBucket key := by
  unfold growDirectory
  split
  · unfold getBucket
    simp only [Nat.one_shiftLeft, Nat.and_pow_two_sub_one_eq_mod]
    have h1 : t.HashKey key % 2 ^ t.globalDepth < t.bucketDirectory.length := by
      rw [h]; exact Nat.mod_lt _ (Nat.two_pow_pos _)
    rw [Nat.mod_pow_succ]
    rcases Nat.mod_two_eq_zero_or_one (t.HashKey key / 2 ^ t.globalDepth) with h0 | h0
    · rw [h0, Nat.mul_zero, Nat.add_zero]
      rw [List.getD_eq_getElem _ _ h1, List.getD_eq_getElem _ _ (by simp; omega)]
      exact List.getElem_append_left h1
    · rw [h0, Nat.mul_one]
      have h2 : t.HashKey key % 2 ^ t.globalDepth + 2 ^ t.globalDepth <
          (t.bucketDirectory ++ t.bucketDirectory).length := by simp; omega
      rw [List.getD_eq_getElem _ _ h1, List.getD_eq_getElem _ _ h2]
      rw [List.getElem_append_right (by omega)]
      simp [h]
  · rfl

omit [DecidableEq K] in
theorem growDirectory_WF (t : ExtendibleHash K V) (tb : Nat) (h : WF t) :
    WF (growDirectory t tb) := by
  refine ⟨growDirectory_length t tb h.length_directory, ?_⟩
  unfold growDirectory
  split
  · intro b hb
    simp only [List.mem_append, or_self] at hb
    exact h.allocated b hb
  · exact h.allocated

theorem repoint_getD (dir : List Nat) (tb nb mask i : Nat) (hi : i < dir.length) :
    (repoint dir tb nb mask).getD i 0 =
      if dir.getD i 0 = tb ∧ mask &&& i ≠ 0 then nb else dir.getD i 0 := by
  have hi2 : i < (repoint dir tb nb mask).length := by rw [repoint_length]; exact hi
  rw [List.getD_eq_getElem _ _ hi2]
  simp [repoint]

theorem repoint_mem (dir : List Nat) (tb nb mask b : Nat) (hb : b ∈ repoint dir tb nb mask) :
    b = nb ∨ b ∈ dir := by
  unfold repoint at hb
  rw [List.mem_map] at hb
  obtain ⟨i, hi, rfl⟩ := hb
  rw [List.mem_range] at hi
  split
  · exact Or.inl rfl
  · right
    rw [List.getD_eq_getElem _ _ hi]
    exact List.getElem_mem _

omit [DecidableEq K] in
theorem addBucket_WF (t : ExtendibleHash K V) (tb : Nat) (h : WF t) : WF (addBucket t tb) := by
  constructor
  · simp only [addBucket, repoint_length]
    exact h.length_directory
  · intro b hb
    simp only [addBucket] at hb ⊢
    rcases repoint_mem _ _ _ _ _ hb with rfl | hb
    · exact Nat.lt_succ_self _
    · exact Nat.lt_succ_of_lt (h.allocated b hb)

theorem rehash_WF (t : ExtendibleHash K V) (tb nb : Nat) (h : WF t) : WF (rehash t tb nb) := by
  constructor
  · rw [(rehash_fields _ tb _).1, (rehash_fields _ tb _).2.1]
    exact h.length_directory
  · rw [(rehash_fields _ tb _).1, (rehash_fields _ tb _).2.2.2.2]
    exact h.allocated

theorem splitBucket_WF (t : ExtendibleHash K V) (tb : Nat) (h : WF t) :
    WF (splitBucket t tb) :=
  rehash_WF _ _ _ (addBucket_WF _ _ (growDirectory_WF t tb h))

theorem insertLoop_WF (fuel : Nat) (t t1 : ExtendibleHash K V) (key : K)
    (h : WF t) (hl : insertLoop fuel t key = some t1) : WF t1 := by
  induction fuel generalizing t with
  | zero =>
    unfold insertLoop at hl
    split at hl
    · cases hl
    · cases hl; exact h
  | succ n ih =>
    unfold insertLoop at hl
    split at hl
    · exact ih _ (splitBucket_WF t _ h) hl
    · cases hl; exact h

theorem Reachable.wf {t : ExtendibleHash K V} (h : Reachable t) : WF t := by
  induction h with
  | init HashKey size hsize =>
    exact ⟨by simp [ExtendibleHash.init], by simp [ExtendibleHash.init]⟩
  | @insert t t1 fuel key value _ hins ih =>
    obtain ⟨t2, hl, rfl⟩ := (Insert_eq_some fuel t t1 key value).1 hins
    have h2 := insertLoop_WF fuel _ t2 key ih hl
    exact ⟨h2.length_directory, h2.allocated⟩
  | remove key _ ih =>
    unfold Remove
    simp only []
    split
    · exact ih
    · exact ⟨ih.length_directory, ih.allocated⟩

omit [DecidableEq K] in
theorem getBucket_congr (t1 t2 : ExtendibleHash K V) (key : K) (h1 : t1.HashKey = t2.HashKey)
    (h2 : t1.globalDepth = t2.globalDepth) (h3 : t1.bucketDirectory = t2.bucketDirectory) :
    t1.getBucket key = t2.getBucket key := by
  unfold getBucket
  rw [h1, h2, h3]

omit [DecidableEq K] in
theorem growDirectory_fields (t : ExtendibleHash K V) (tb : Nat) :
    (growDirectory t tb).heap = t.heap ∧ (growDirectory t tb).heapSize = t.heapSize ∧
    (growDirectory t tb).bucketSizeLimit = t.bucketSizeLimit ∧
    (growDirectory t tb).HashKey = t.HashKey := by
  unfold growDirectory
  split <;> simp

theorem getBucket_rehash (t : ExtendibleHash K V) (tb nb : Nat) (key : K) :
    (rehash t tb nb).getBucket key = t.getBucket key :=
  getBucket_congr _ _ key (rehash_fields t tb nb).2.2.1 (rehash_fields t tb nb).2.1
    (rehash_fields t tb nb).1

omit [DecidableEq K] in
theorem getBucket_addBucket (t : ExtendibleHash K V) (tb : Nat) (key : K) (h : WF t) :
    (addBucket t tb).getBucket key =
      if t.getBucket key = tb ∧
          (1 <<< (t.heap tb).localDepth) &&& (t.HashKey key &&& ((1 <<< t.globalDepth) - 1)) ≠ 0
      then t.heapSize else t.getBucket key := by
  unfold getBucket addBucket
  simp only []
  rw [repoint_getD _ _ _ _ _ (index_lt_of_length t key h.length_directory)]

/-- A bucket of capacity 1 that holds the key being inserted is full before and
after every split: the split loop of `Insert` makes no progress. -/
theorem splitBucket_stuck (t : ExtendibleHash K V) (key : K) (value : V) (h : WF t)
    (hitems : (t.heap (t.getBucket key)).items = [(key, value)]) :
    ((splitBucket t (t.getBucket key)).heap
      ((splitBucket t (t.getBucket key)).getBucket key)).items = [(key, value)] := by
  have htb : t.getBucket key < t.heapSize := h.allocated _ (h.getBucket_mem key)
  generalize hb : t.getBucket key = tb at hitems htb ⊢
  obtain ⟨hheap, hsize, -, -⟩ := growDirectory_fields t tb
  have h1 : WF (growDirectory t tb) := growDirectory_WF t tb h
  have hb1 : (growDirectory t tb).getBucket key = tb := by
    rw [getBucket_growDirectory t tb key h.length_directory, hb]
  unfold splitBucket
  simp only []
  generalize growDirectory t tb = t1 at hheap hsize h1 hb1 ⊢
  have hne : tb ≠ t1.heapSize := by omega
  have hit4 : ((addBucket t1 tb).heap tb).items = [(key, value)] := by
    simp [addBucket, upd, hne, hheap, hitems]
  have hnew : ((addBucket t1 tb).heap t1.heapSize).items = [] := by
    simp [addBucket, upd]
  have hg4 := getBucket_addBucket t1 tb key h1
  rw [getBucket_rehash]
  unfold rehash
  rw [hit4, List.foldl_cons, List.foldl_nil]
  unfold rehashItem
  simp only []
  split at hg4
  · rw [hg4]
    have hne2 : t1.heapSize ≠ tb := fun e => hne e.symm
    simp [hne2, upd, hnew, mapSet, mapErase]
  · rw [hg4, hb1]
    simp [hit4]

theorem insertLoop_stuck (fuel : Nat) (t : ExtendibleHash K V) (key : K) (value : V)
    (h : WF t) (hlimit : t.bucketSizeLimit = 1)
    (hitems : (t.heap (t.getBucket key)).items = [(key, value)]) :
    insertLoop fuel t key = none := by
  induction fuel generalizing t with
  | zero => simp [insertLoop, hitems, hlimit]
  | succ n ih =>
    unfold insertLoop
    rw [if_pos (by simp [hitems, hlimit])]
    apply ih _ (splitBucket_WF t _ h)
    · unfold splitBucket
      simp only []
      rw [(rehash_fields _ _ _).2.2.2.1]
      simp only [addBucket]
      rw [(growDirectory_fields t _).2.2.1, hlimit]
    · exact splitBucket_stuck t key value h hitems

/-- Claim C9, the code at a failing input: With bucket capacity 2 and the keys 0 and 1
stored in the one bucket of the table, `Insert(0, 12)` on the stored key 0 splits the
full bucket: the global depth goes from 0 to 1 and the directory from one entry to
two.  With bucket capacity 1 and the key 0 stored, `Insert(0, 12)` does not return,
whatever the number of splits allowed. -/
theorem Insert_stored_key_splits :
    tableTwo.Find 0 = some 10 ∧ tableTwo.globalDepth = 0 ∧ tableTwo.bucketDirectory = [0] ∧
    (Insert 1 tableTwo 0 12).map (fun t => t.globalDepth) = some 1 ∧
    (Insert 1 tableTwo 0 12).map (fun t => t.bucketDirectory) = some [0, 1] ∧
    tableOne.Find 0 = some 10 ∧
    (∀ fuel, Insert fuel tableOne 0 12 = none) := by
  refine ⟨rfl, rfl, rfl, rfl, rfl, rfl, ?_⟩
  intro fuel
  unfold Insert
  rw [insertLoop_stuck fuel tableOne 0 10 tableOne_reachable.wf rfl rfl]
  rfl

end ExtendibleHash

/-! ## LRU replacer lemmas -/
namespace LRUReplacer
variable {T : Type} [DecidableEq T]

theorem Erase_lst (r : LRUReplacer T) (v : T) : (r.Erase v).2.lst = r.lst.erase v := by
  unfold Erase
  split
  · rfl
  · rename_i h
    exact (List.erase_of_not_mem h).symm

theorem Erase_fst (r : LRUReplacer T) (v : T) : (r.Erase v).1 = decide (v ∈ r.lst) := by
  unfold Erase
  split <;> simp [*]

theorem Insert_lst (r : LRUReplacer T) (v : T) : (r.Insert v).lst = v :: r.lst.erase v := by
  unfold Insert
  split
  · rfl
  · rename_i h
    rw [List.erase_of_not_mem h]

omit [DecidableEq T] in
theorem Victim_none (r : LRUReplacer T) : r.Victim.1 = none ↔ r.lst = [] := by
  unfold Victim
  cases h : r.lst.getLast? with
  | none => simpa using h
  | some v =>
    simp only [reduceCtorEq, false_iff]
    intro e
    simp [e] at h

omit [DecidableEq T] in
theorem Victim_some (r : LRUReplacer T) (v : T) (r1 : LRUReplacer T)
    (h : r.Victim = (some v, r1)) : r.lst = r1.lst ++ [v] := by
  unfold Victim at h
  cases hl : r.lst.getLast? with
  | none => simp [hl] at h
  | some w =>
    simp only [hl, Prod.mk.injEq, Option.some.injEq] at h
    obtain ⟨rfl, rfl⟩ := h
    exact (List.dropLast_append_getLast? w hl).symm

end LRUReplacer

theorem DiskManager.AllocatePage_ne_invalid {D : Type} (d : DiskManager D) :
    d.AllocatePage.1 ≠ INVALID_PAGE_ID := by
  show ((d.next_page_id : Int) ≠ -1)
  omega

namespace BufferPoolManager

variable {D : Type} [Zero D]

/-! ## The pool invariant -/

theorem Inv_init (pool_size : Nat) (disk_manager : DiskManager D) :
    Inv (init pool_size disk_manager) := by
  constructor
  · exact List.nodup_range pool_size
  · intro i hi; simpa [init] using hi
  · simp [init, LRUReplacer.init]
  · simp [init, LRUReplacer.init]
  · simp [init, LRUReplacer.init]
  · intro i _; simp [init, Page.init]
  · intro i hi
    have hi2 : i < pool_size := hi
    simp [init, Page.init, hi2]
  · intro q i h; simp [init, mapFind] at h
  · intro i _; simp [init, Page.init]

omit [Zero D] in
theorem Taken_of_free (s : BufferPoolManager D) (page : Nat) (rest : List Nat) (h : Inv s)
    (hf : s.free_list_ = page :: rest) : Taken { s with free_list_ := rest } page := by
  have hnd := h.free_nodup
  rw [hf] at hnd
  have hmem : page ∈ s.free_list_ := by rw [hf]; exact List.mem_cons_self _ _
  have hsub : ∀ i ∈ rest, i ∈ s.free_list_ := fun i hi => by
    rw [hf]; exact List.mem_cons_of_mem _ hi
  constructor
  · exact (List.nodup_cons.1 hnd).2
  · exact fun i hi => h.free_lt i (hsub i hi)
  · exact h.repl_nodup
  · exact h.repl_lt
  · exact fun i hi => h.disjoint i (hsub i hi)
  · exact h.pin_nonneg
  · exact h.free_lt page hmem
  · exact (List.nodup_cons.1 hnd).1
  · exact h.disjoint page hmem
  · exact (h.idle_iff page (h.free_lt page hmem)).1 (Or.inl hmem)
  · intro i hi hne
    rw [← h.idle_iff i hi, hf]
    simp [hne]
  · exact h.table
  · exact fun i hi => h.free_invalid i (hsub i hi)

omit [Zero D] in
theorem Taken_of_victim (s : BufferPoolManager D) (page : Nat) (r1 : LRUReplacer Nat)
    (h : Inv s) (hf : s.free_list_ = []) (hv : s.replacer_.Victim = (some page, r1)) :
    Taken { s with replacer_ := r1 } page := by
  have hl := LRUReplacer.Victim_some _ _ _ hv
  have hnd := h.repl_nodup
  rw [hl] at hnd
  have hmem : page ∈ s.replacer_.lst := by rw [hl]; simp
  have hsub : ∀ i ∈ r1.lst, i ∈ s.replacer_.lst := fun i hi => by
    rw [hl]; exact List.mem_append_left _ hi
  have hnot : page ∉ r1.lst := by
    intro hp
    have := List.disjoint_of_nodup_append hnd hp
    simp at this
  constructor
  · exact h.free_nodup
  · exact h.free_lt
  · exact (List.nodup_append.1 hnd).1
  · exact fun i hi => h.repl_lt i (hsub i hi)
  · exact fun i hi hr => h.disjoint i hi (hsub i hr)
  · exact h.pin_nonneg
  · exact h.repl_lt page hmem
  · simp [hf]
  · exact hnot
  · exact (h.idle_iff page (h.repl_lt page hmem)).1 (Or.inr hmem)
  · intro i hi hne
    rw [← h.idle_iff i hi, hl]
    simp [hne]
  · exact h.table
  · exact h.free_invalid

theorem Inv_fetchInto (s : BufferPoolManager D) (page_id : page_id_t) (page : Nat)
    (h : Taken s page) (hq : page_id ≠ INVALID_PAGE_ID) : Inv (fetchInto s page_id page) := by
  have hrepl : (s.replacer_.Erase page).2 = s.replacer_ := by
    unfold LRUReplacer.Erase
    rw [if_neg h.page_repl]
  unfold fetchInto
  simp only [hrepl]
  constructor
  · exact h.free_nodup
  · exact h.free_lt
  · exact h.repl_nodup
  · exact h.repl_lt
  · exact h.disjoint
  · intro i hi
    by_cases e : i = page
    · subst e
      simp [upd, Page.ResetMemory, h.page_pin]
    · simp only [upd, e, if_false]
      exact h.pin_nonneg i hi
  · intro i hi
    by_cases e : i = page
    · subst e
      simp [upd, Page.ResetMemory, h.page_pin, h.page_free, h.page_repl]
    · simp only [upd, e, if_false]
      exact h.idle_iff i hi e
  · intro q i hfind
    simp only [mapFind_mapSet, mapFind_mapErase] at hfind
    by_cases e : q = page_id
    · subst e
      simp only [if_true, Option.some.injEq] at hfind
      subst hfind
      exact ⟨h.page_lt, by simp [upd, Page.ResetMemory], hq⟩
    · simp only [e, if_false] at hfind
      split at hfind
      · cases hfind
      · rename_i hne
        obtain ⟨h1, h2, h3⟩ := h.table q i hfind
        have e2 : i ≠ page := by
          intro e2; subst e2; exact hne h2.symm
        exact ⟨h1, by simp only [upd, e2, if_false]; exact h2, h3⟩
  · intro i hi
    have e : i ≠ page := fun e => h.page_free (e ▸ hi)
    simp only [upd, e, if_false]
    exact h.free_invalid i hi

theorem Inv_newInto (s : BufferPoolManager D) (page : Nat) (h : Taken s page) :
    Inv (newInto s page).2 := by
  unfold newInto
  simp only []
  constructor
  · exact h.free_nodup
  · exact h.free_lt
  · exact h.repl_nodup
  · exact h.repl_lt
  · exact h.disjoint
  · intro i hi
    by_cases e : i = page
    · subst e
      simp [upd, Page.ResetMemory]
    · simp only [upd, e, if_false]
      exact h.pin_nonneg i hi
  · intro i hi
    by_cases e : i = page
    · subst e
      simp [upd, Page.ResetMemory, h.page_free, h.page_repl]
    · simp only [upd, e, if_false]
      exact h.idle_iff i hi e
  · intro q i hfind
    simp only [mapFind_mapSet, mapFind_mapErase] at hfind
    by_cases e : q = (writeBack s page).AllocatePage.1
    · simp only [e, if_true, Option.some.injEq] at hfind
      subst hfind
      refine ⟨h.page_lt, by simp [upd, Page.ResetMemory, e], ?_⟩
      rw [e]
      exact DiskManager.AllocatePage_ne_invalid _
    · simp only [e, if_false] at hfind
      split at hfind
      · cases hfind
      · rename_i hne
        obtain ⟨h1, h2, h3⟩ := h.table q i hfind
        have e2 : i ≠ page := by
          intro e2; subst e2; exact hne h2.symm
        exact ⟨h1, by simp only [upd, e2, if_false]; exact h2, h3⟩
  · intro i hi
    have e : i ≠ page := fun e => h.page_free (e ▸ hi)
    simp only [upd, e, if_false]
    exact h.free_invalid i hi

omit [Zero D] in
theorem Inv.not_free_of_table {s : BufferPoolManager D} (h : Inv s) {q : page_id_t} {i : Nat}
    (hfind : mapFind q s.page_table_ = some i) : i ∉ s.free_list_ := by
  intro hi
  obtain ⟨_, h2, h3⟩ := h.table q i hfind
  exact h3 (h2 ▸ h.free_invalid i hi)

theorem Inv_FetchPage (s : BufferPoolManager D) (page_id : page_id_t) (h : Inv s) :
    Inv (s.FetchPage page_id).2 := by
  unfold FetchPage
  split
  · exact h
  · rename_i hq
    split
    · rename_i page hfind
      obtain ⟨hlt, hid, _⟩ := h.table page_id page hfind
      have hnf := h.not_free_of_table hfind
      simp only [LRUReplacer.Erase_lst]
      constructor
      · exact h.free_nodup
      · exact h.free_lt
      · simp only [LRUReplacer.Erase_lst]; exact h.repl_nodup.erase _
      · simp only [LRUReplacer.Erase_lst]
        exact fun i hi => h.repl_lt i (List.mem_of_mem_erase hi)
      · simp only [LRUReplacer.Erase_lst]
        exact fun i hi hr => h.disjoint i hi (List.mem_of_mem_erase hr)
      · intro i hi
        by_cases e : i = page
        · subst e
          have := h.pin_nonneg i hi
          simp only [upd, if_true]
          omega
        · simp only [upd, e, if_false]
          exact h.pin_nonneg i hi
      · intro i hi
        simp only [LRUReplacer.Erase_lst]
        by_cases e : i = page
        · subst e
          have := h.pin_nonneg i hi
          simp only [upd, if_true, h.repl_nodup.mem_erase_iff, hnf, ne_eq, not_true, false_and,
            or_self, false_iff]
          omega
        · simp only [upd, e, if_false, h.repl_nodup.mem_erase_iff, ne_eq, not_false_eq_true,
            true_and]
          exact h.idle_iff i hi
      · intro q i hf
        obtain ⟨h1, h2, h3⟩ := h.table q i hf
        refine ⟨h1, ?_, h3⟩
        by_cases e : i = page
        · subst e; simp only [upd, if_true]; exact h2
        · simp only [upd, e, if_false]; exact h2
      · intro i hi
        have e : i ≠ page := fun e => hnf (e ▸ hi)
        simp only [upd, e, if_false]
        exact h.free_invalid i hi
    · split
      · rename_i hfree
        split
        · exact h
        · rename_i page r1 hv
          exact Inv_fetchInto _ _ _ (Taken_of_victim s page r1 h hfree hv) hq
      · rename_i page rest hfree
        exact Inv_fetchInto _ _ _ (Taken_of_free s page rest h hfree) hq

theorem Inv_NewPage (s : BufferPoolManager D) (h : Inv s) : Inv s.NewPage.2 := by
  unfold NewPage
  split
  · rename_i page rest hfree
    exact Inv_newInto _ _ (Taken_of_free s page rest h hfree)
  · rename_i hfree
    split
    · exact h
    · rename_i page r1 hv
      exact Inv_newInto _ _ (Taken_of_victim s page r1 h hfree hv)

omit [Zero D] in
theorem Inv_UnpinPage (s : BufferPoolManager D) (page_id : page_id_t) (is_dirty : Bool)
    (h : Inv s) : Inv (s.UnpinPage page_id is_dirty).2 := by
  unfold UnpinPage
  split
  · exact h
  · rename_i page hfind
    obtain ⟨hlt, hid, _⟩ := h.table page_id page hfind
    have hnf := h.not_free_of_table hfind
    split
    · exact h
    · rename_i hpin
      have hnr : page ∉ s.replacer_.lst := by
        intro hr
        have := (h.idle_iff page hlt).1 (Or.inr hr)
        omega
      have hrl : ∀ i, i ∈ (if (s.pages_ page).pin_count_ - 1 = (0 : Int)
          then s.replacer_.Insert page else s.replacer_).lst ↔
          (i ∈ s.replacer_.lst ∨ (i = page ∧ (s.pages_ page).pin_count_ - 1 = (0 : Int))) := by
        intro i
        split
        · rename_i h0
          rw [LRUReplacer.Insert_lst, List.erase_of_not_mem hnr]
          simp [h0, or_comm]
        · rename_i h0
          simp [h0]
      simp only []
      constructor
      · exact h.free_nodup
      · exact h.free_lt
      · show List.Nodup (if (s.pages_ page).pin_count_ - 1 = (0 : Int)
          then s.replacer_.Insert page else s.replacer_).lst
        split
        · rw [LRUReplacer.Insert_lst, List.erase_of_not_mem hnr]
          exact List.nodup_cons.2 ⟨hnr, h.repl_nodup⟩
        · exact h.repl_nodup
      · intro i hi
        rcases (hrl i).1 hi with hi | ⟨rfl, _⟩
        · exact h.repl_lt i hi
        · exact hlt
      · intro i hi hr
        rcases (hrl i).1 hr with hr | ⟨rfl, _⟩
        · exact h.disjoint i hi hr
        · exact hnf hi
      · intro i hi
        by_cases e : i = page
        · subst e
          simp only [upd, if_true]
          omega
        · simp only [upd, e, if_false]
          exact h.pin_nonneg i hi
      · intro i hi
        show (i ∈ s.free_list_ ∨ i ∈ (if (s.pages_ page).pin_count_ - 1 = (0 : Int)
          then s.replacer_.Insert page else s.replacer_).lst) ↔ _
        rw [hrl i]
        by_cases e : i = page
        · subst e
          simp only [upd, if_true, hnf, hnr, true_and, false_or]
        · simp only [upd, e, if_false, false_and, or_false]
          exact h.idle_iff i hi
      · intro q i hf
        obtain ⟨h1, h2, h3⟩ := h.table q i hf
        refine ⟨h1, ?_, h3⟩
        by_cases e : i = page
        · subst e; simp only [upd, if_true]; exact h2
        · simp only [upd, e, if_false]; exact h2
      · intro i hi
        have e : i ≠ page := fun e => hnf (e ▸ hi)
        simp only [upd, e, if_false]
        exact h.free_invalid i hi

omit [Zero D] in
theorem Inv_FlushPage (s : BufferPoolManager D) (page_id : page_id_t) (h : Inv s) :
    Inv (s.FlushPage page_id).2 := by
  unfold FlushPage
  split
  · exact h
  · split
    · exact h
    · rename_i page hfind
      have hp : ∀ i, ((upd s.pages_ page { s.pages_ page with is_dirty_ := false }) i).pin_count_
          = (s.pages_ i).pin_count_ ∧
          ((upd s.pages_ page { s.pages_ page with is_dirty_ := false }) i).page_id_
          = (s.pages_ i).page_id_ := by
        intro i
        by_cases e : i = page
        · subst e; simp [upd]
        · simp [upd, e]
      constructor
      · exact h.free_nodup
      · exact h.free_lt
      · exact h.repl_nodup
      · exact h.repl_lt
      · exact h.disjoint
      · intro i hi; simp only [(hp i).1]; exact h.pin_nonneg i hi
      · intro i hi; simp only [(hp i).1]; exact h.idle_iff i hi
      · intro q i hf; simp only [(hp i).2]; exact h.table q i hf
      · intro i hi; simp only [(hp i).2]; exact h.free_invalid i hi

theorem Inv_DeletePage (s : BufferPoolManager D) (page_id : page_id_t) (h : Inv s) :
    Inv (s.DeletePage page_id).2 := by
  unfold DeletePage
  split
  · exact h
  · rename_i page hfind
    obtain ⟨hlt, hid, hinv⟩ := h.table page_id page hfind
    have hnf := h.not_free_of_table hfind
    split
    · exact h
    · rename_i hpin
      simp only [LRUReplacer.Erase_lst]
      constructor
      · show (s.free_list_ ++ [page]).Nodup
        rw [List.nodup_append]
        refine ⟨h.free_nodup, List.nodup_singleton _, ?_⟩
        intro a ha hb
        simp only [List.mem_singleton] at hb
        subst hb
        exact hnf ha
      · intro i hi
        simp only [List.mem_append, List.mem_singleton] at hi
        rcases hi with hi | rfl
        · exact h.free_lt i hi
        · exact hlt
      · simp only [LRUReplacer.Erase_lst]; exact h.repl_nodup.erase _
      · simp only [LRUReplacer.Erase_lst]
        exact fun i hi => h.repl_lt i (List.mem_of_mem_erase hi)
      · simp only [LRUReplacer.Erase_lst]
        intro i hi hr
        simp only [List.mem_append, List.mem_singleton] at hi
        rcases hi with hi | rfl
        · exact h.disjoint i hi (List.mem_of_mem_erase hr)
        · exact ((h.repl_nodup.mem_erase_iff).1 hr).1 rfl
      · intro i hi
        by_cases e : i = page
        · subst e; simp [upd, Page.ResetMemory]
        · simp only [upd, e, if_false]
          exact h.pin_nonneg i hi
      · intro i hi
        simp only [LRUReplacer.Erase_lst, List.mem_append, List.mem_singleton,
          h.repl_nodup.mem_erase_iff]
        by_cases e : i = page
        · subst e; simp [upd, Page.ResetMemory]
        · simp only [upd, e, if_false, or_false, ne_eq, not_false_eq_true, true_and]
          exact h.idle_iff i hi
      · intro q i hf
        simp only [mapFind_mapErase] at hf
        split at hf
        · cases hf
        · rename_i hne
          obtain ⟨h1, h2, h3⟩ := h.table q i hf
          have e : i ≠ page := by
            intro e; subst e; exact hne (h2.symm.trans hid)
          exact ⟨h1, by simp only [upd, e, if_false]; exact h2, h3⟩
      · intro i hi
        simp only [List.mem_append, List.mem_singleton] at hi
        by_cases e : i = page
        · subst e; simp [upd, Page.ResetMemory]
        · simp only [upd, e, if_false]
          exact h.free_invalid i (hi.resolve_right e)

omit [Zero D] in
theorem Inv_writeData (s : BufferPoolManager D) (page : Nat) (data : D) (h : Inv s) :
    Inv (s.writeData page data) := by
  have hp : ∀ i, ((s.writeData page data).pages_ i).pin_count_ = (s.pages_ i).pin_count_ ∧
      ((s.writeData page data).pages_ i).page_id_ = (s.pages_ i).page_id_ := by
    intro i
    by_cases e : i = page
    · subst e; simp [writeData, upd]
    · simp [writeData, upd, e]
  constructor
  · exact h.free_nodup
  · exact h.free_lt
  · exact h.repl_nodup
  · exact h.repl_lt
  · exact h.disjoint
  · intro i hi; rw [(hp i).1]; exact h.pin_nonneg i hi
  · intro i hi; rw [(hp i).1]; exact h.idle_iff i hi
  · intro q i hf; rw [(hp i).2]; exact h.table q i hf
  · intro i hi; rw [(hp i).2]; exact h.free_invalid i hi

theorem Inv_step (s : BufferPoolManager D) (op : Op D) (h : Inv s) : Inv (s.step op) := by
  cases op with
  | fetch page_id => exact Inv_FetchPage s page_id h
  | unpin page_id is_dirty => exact Inv_UnpinPage s page_id is_dirty h
  | flush page_id => exact Inv_FlushPage s page_id h
  | delete page_id => exact Inv_DeletePage s page_id h
  | new => exact Inv_NewPage s h
  | write page data => exact Inv_writeData s page data h

theorem Inv_run (s : BufferPoolManager D) (ops : List (Op D)) (h : Inv s) : Inv (s.run ops) := by
  induction ops generalizing s with
  | nil => exact h
  | cons op rest ih => exact ih _ (Inv_step s op h)

theorem Reachable.inv {s : BufferPoolManager D} (h : Reachable s) : Inv s := by
  obtain ⟨n, d, ops, rfl⟩ := h
  exact Inv_run _ ops (Inv_init n d)

/-- Claim C1, the code at a failing input: In a pool of one frame, page 0 is created, the
payload 7 is written, the page is unpinned dirty and fetched again: it is resident,
pinned and dirty.  `UnpinPage(0, false)` then returns true and leaves the frame
clean, where the claim says dirty; the next `NewPage` reuses the frame without any
`WritePage`, so the disk still holds the zero payload for page 0. -/
theorem UnpinPage_false_clears_dirty :
    mapFind 0 (run poolOne [Op.new, Op.write 0 7, Op.unpin 0 true, Op.fetch 0]).page_table_
      = some 0 ∧
    ((run poolOne [Op.new, Op.write 0 7, Op.unpin 0 true, Op.fetch 0]).pages_ 0).pin_count_ = 1 ∧
    ((run poolOne [Op.new, Op.write 0 7, Op.unpin 0 true, Op.fetch 0]).pages_ 0).is_dirty_
      = true ∧
    ((run poolOne [Op.new, Op.write 0 7, Op.unpin 0 true, Op.fetch 0]).UnpinPage 0 false).1
      = true ∧
    (((run poolOne [Op.new, Op.write 0 7, Op.unpin 0 true, Op.fetch 0]).UnpinPage 0 false).2.pages_
      0).is_dirty_ = false ∧
    (run poolOne [Op.new, Op.write 0 7, Op.unpin 0 true, Op.fetch 0, Op.unpin 0 false,
      Op.new]).disk_manager_.calls = [DiskCall.AllocatePage 0, DiskCall.AllocatePage 1] ∧
    (run poolOne [Op.new, Op.write 0 7, Op.unpin 0 true, Op.fetch 0, Op.unpin 0 false,
      Op.new]).disk_manager_.content 0 = 0 := by
  refine ⟨rfl, rfl, rfl, rfl, rfl, rfl, rfl⟩

/-- Claim C3, the code at a failing input: In a pool of one frame, page 0 is created and
unpinned dirty; page 5 is not resident.  `FetchPage(5)` returns the frame with
`page_id = 5` and `pin_count = 1`, but `is_dirty` is still true, where the claim says
false. -/
theorem FetchPage_miss_keeps_dirty :
    mapFind 5 (run poolOne [Op.new, Op.unpin 0 true]).page_table_ = none ∧
    ((run poolOne [Op.new, Op.unpin 0 true]).FetchPage 5).1 = some 0 ∧
    (((run poolOne [Op.new, Op.unpin 0 true]).FetchPage 5).2.pages_ 0).page_id_ = 5 ∧
    (((run poolOne [Op.new, Op.unpin 0 true]).FetchPage 5).2.pages_ 0).pin_count_ = 1 ∧
    (((run poolOne [Op.new, Op.unpin 0 true]).FetchPage 5).2.pages_ 0).is_dirty_ = true := by
  refine ⟨rfl, rfl, rfl, rfl, rfl⟩

/-! ## Pool exhaustion -/

theorem NewPage_none_iff_lists (s : BufferPoolManager D) :
    s.NewPage.1 = none ↔ s.free_list_ = [] ∧ s.replacer_.lst = [] := by
  unfold NewPage
  split
  · rename_i page rest hf
    simp [hf]
  · rename_i hf
    split
    · rename_i r hv
      have : s.replacer_.Victim.1 = none := by rw [hv]
      simp [hf, (LRUReplacer.Victim_none _).1 this]
    · rename_i page r1 hv
      have := LRUReplacer.Victim_some _ _ _ hv
      simp [hf, this]

omit [Zero D] in
theorem Inv.lists_nil_iff {s : BufferPoolManager D} (h : Inv s) :
    (s.free_list_ = [] ∧ s.replacer_.lst = []) ↔
      ∀ i, i < s.pool_size_ → 0 < (s.pages_ i).pin_count_ := by
  constructor
  · rintro ⟨hf, hr⟩ i hi
    have h1 := h.pin_nonneg i hi
    have h2 := (h.idle_iff i hi).2
    rw [hf, hr] at h2
    have h3 : (s.pages_ i).pin_count_ ≠ 0 := fun e => by simpa using h2 e
    omega
  · intro hall
    constructor
    · apply List.eq_nil_iff_forall_not_mem.2
      intro i hi
      have h1 := hall i (h.free_lt i hi)
      have h2 := (h.idle_iff i (h.free_lt i hi)).1 (Or.inl hi)
      omega
    · apply List.eq_nil_iff_forall_not_mem.2
      intro i hi
      have h1 := hall i (h.repl_lt i hi)
      have h2 := (h.idle_iff i (h.repl_lt i hi)).1 (Or.inr hi)
      omega

theorem newInto_lists (s : BufferPoolManager D) (page : Nat) :
    (newInto s page).2.free_list_ = s.free_list_ ∧ (newInto s page).2.replacer_ = s.replacer_ ∧
    (newInto s page).2.pool_size_ = s.pool_size_ := by
  simp [newInto]

theorem run_new_lists (n : Nat) (d : DiskManager D) (k : Nat) (hk : k ≤ n) :
    (run (init n d) (List.replicate k Op.new)).free_list_ = (List.range n).drop k ∧
    (run (init n d) (List.replicate k Op.new)).replacer_.lst = [] := by
  induction k with
  | zero => simp [run, init, LRUReplacer.init]
  | succ k ih =>
    obtain ⟨h1, h2⟩ := ih (Nat.le_of_succ_le hk)
    rw [List.replicate_succ', run, List.foldl_append]
    simp only [List.foldl_cons, List.foldl_nil]
    change (step (run (init n d) (List.replicate k Op.new)) Op.new).free_list_ = _ ∧
      (step (run (init n d) (List.replicate k Op.new)) Op.new).replacer_.lst = _
    generalize run (init n d) (List.replicate k Op.new) = s at h1 h2
    have hlt : k < (List.range n).length := by simpa using hk
    have hd : (List.range n).drop k = (List.range n)[k] :: (List.range n).drop (k + 1) :=
      List.drop_eq_getElem_cons hlt
    rw [hd] at h1
    simp only [step, NewPage, h1]
    rw [(newInto_lists _ _).1, (newInto_lists _ _).2.1]
    exact ⟨rfl, h2⟩

/-- Claim C2: In a state reachable from a freshly constructed pool, `NewPage` returns
`nullptr` if and only if every frame of the pool has a positive pin count.  On a
freshly constructed pool of `n` frames, `NewPage` succeeds after `k < n` calls of
`NewPage` and returns `nullptr` after `n` calls. -/
theorem NewPage_none_iff_all_pinned (s : BufferPoolManager D) (n : Nat) (d : DiskManager D)
    (h : Reachable s) :
    (s.NewPage.1 = none ↔ ∀ i, i < s.pool_size_ → 0 < (s.pages_ i).pin_count_) ∧
    (∀ k, k < n → (run (init n d) (List.replicate k Op.new)).NewPage.1.isSome = true) ∧
    (run (init n d) (List.replicate n Op.new)).NewPage.1 = none := by
  refine ⟨(NewPage_none_iff_lists s).trans h.inv.lists_nil_iff, ?_, ?_⟩
  · intro k hk
    cases hn : (run (init n d) (List.replicate k Op.new)).NewPage.1 with
    | some _ => rfl
    | none =>
      have h1 := ((NewPage_none_iff_lists _).1 hn).1
      rw [(run_new_lists n d k (Nat.le_of_lt hk)).1] at h1
      have h2 := congrArg List.length h1
      simp at h2
      omega
  · rw [NewPage_none_iff_lists]
    obtain ⟨h1, h2⟩ := run_new_lists n d n (le_refl n)
    refine ⟨?_, h2⟩
    rw [h1]
    simp

theorem NewPage_none_iff_all_pinned_witness :
    ((run poolThree [Op.new, Op.new, Op.new]).NewPage.1 = none ↔
      ∀ i, i < (run poolThree [Op.new, Op.new, Op.new]).pool_size_ →
        0 < ((run poolThree [Op.new, Op.new, Op.new]).pages_ i).pin_count_) ∧
    (∀ k, k < 3 →
      (run (init 3 (DiskManager.init : DiskManager Nat))
        (List.replicate k Op.new)).NewPage.1.isSome = true) ∧
    (run (init 3 (DiskManager.init : DiskManager Nat)) (List.replicate 3 Op.new)).NewPage.1
      = none :=
  NewPage_none_iff_all_pinned (run poolThree [Op.new, Op.new, Op.new]) 3 DiskManager.init
    ⟨3, DiskManager.init, [Op.new, Op.new, Op.new], rfl⟩

/-! ## Write-back of a dirty victim -/

omit [Zero D] in
theorem writeBack_dirty (s : BufferPoolManager D) (page : Nat)
    (hd : (s.pages_ page).is_dirty_ = true) :
    writeBack s page =
      s.disk_manager_.WritePage (s.pages_ page).page_id_ (s.pages_ page).data_ := by
  unfold writeBack
  rw [if_pos hd]

/-- The frame that `NewPage` returns, when it holds a resident page, is the victim
of the replacer and the free list is empty. -/
theorem NewPage_victim (s : BufferPoolManager D) (h : Inv s) (p id : page_id_t) (f : Nat)
    (hres : mapFind p s.page_table_ = some f) (hret : s.NewPage.1 = some (id, f)) :
    ∃ r1, s.NewPage = (some ((newInto { s with replacer_ := r1 } f).1, f),
      (newInto { s with replacer_ := r1 } f).2) := by
  have hnf := h.not_free_of_table hres
  unfold NewPage at hret ⊢
  split at hret
  · rename_i page rest hf
    simp only [Option.some.injEq, Prod.mk.injEq] at hret
    rw [hf, ← hret.2] at hnf
    simp at hnf
  · rename_i hf
    split at hret
    · cases hret
    · rename_i page r1 hv
      simp only [Option.some.injEq, Prod.mk.injEq] at hret
      obtain ⟨_, rfl⟩ := hret
      refine ⟨r1, ?_⟩
      simp only [hf, hv]

/-- The frame that `FetchPage` returns on a miss, when it holds a resident page, is
the victim of the replacer and the free list is empty. -/
theorem FetchPage_victim (s : BufferPoolManager D) (h : Inv s) (p q : page_id_t) (f : Nat)
    (hres : mapFind p s.page_table_ = some f) (hq : q ≠ INVALID_PAGE_ID)
    (hmiss : mapFind q s.page_table_ = none) (hret : (s.FetchPage q).1 = some f) :
    ∃ r1, s.FetchPage q = (some f, fetchInto { s with replacer_ := r1 } q f) := by
  have hnf := h.not_free_of_table hres
  unfold FetchPage at hret ⊢
  rw [if_neg hq] at hret ⊢
  simp only [hmiss] at hret ⊢
  split at hret
  · rename_i hf
    split at hret
    · cases hret
    · rename_i page r1 hv
      simp only [Option.some.injEq] at hret
      subst hret
      refine ⟨r1, ?_⟩
      simp only [hf, hv]
  · rename_i page rest hf
    simp only [Option.some.injEq] at hret
    rw [hf, ← hret] at hnf
    simp at hnf

/-- Claim C4: In a reachable state where page `p` is resident in the dirty frame `f` with
payload `data`: when `NewPage` returns `f`, or when `FetchPage(q)` misses and
returns `f`, the disk manager receives `WritePage(p, data)` as the first call of the
operation, the disk holds `data` for `p` afterwards, and the payload of the frame is
cleared (zero after `NewPage`, the content of `q` after `FetchPage`). -/
theorem dirty_victim_written_back (s : BufferPoolManager D) (p : page_id_t) (f : Nat) (data : D)
    (h : Reachable s) (hres : mapFind p s.page_table_ = some f)
    (hdirty : (s.pages_ f).is_dirty_ = true) (hdata : (s.pages_ f).data_ = data) :
    (∀ id, s.NewPage.1 = some (id, f) →
      s.NewPage.2.disk_manager_.calls =
        s.disk_manager_.calls ++ [DiskCall.WritePage p data, DiskCall.AllocatePage id] ∧
      s.NewPage.2.disk_manager_.content p = data ∧
      (s.NewPage.2.pages_ f).data_ = 0) ∧
    (∀ q, q ≠ INVALID_PAGE_ID → mapFind q s.page_table_ = none → (s.FetchPage q).1 = some f →
      (s.FetchPage q).2.disk_manager_.calls =
        s.disk_manager_.calls ++ [DiskCall.WritePage p data, DiskCall.ReadPage q] ∧
      (s.FetchPage q).2.disk_manager_.content p = data ∧
      ((s.FetchPage q).2.pages_ f).data_ = (s.FetchPage q).2.disk_manager_.content q) := by
  have hid : (s.pages_ f).page_id_ = p := (h.inv.table p f hres).2.1
  constructor
  · intro id hret
    obtain ⟨r1, he⟩ := NewPage_victim s h.inv p id f hres hret
    have hid2 : id = (newInto { s with replacer_ := r1 } f).1 := by
      rw [he] at hret
      simp only [Option.some.injEq, Prod.mk.injEq, and_true] at hret
      exact hret.symm
    rw [he, hid2]
    simp only [newInto]
    rw [writeBack_dirty { s with replacer_ := r1 } f hdirty]
    simp [DiskManager.AllocatePage, DiskManager.WritePage, hid, hdata, upd, Page.ResetMemory]
  · intro q hq hmiss hret
    obtain ⟨r1, he⟩ := FetchPage_victim s h.inv p q f hres hq hmiss hret
    rw [he]
    simp only [fetchInto]
    rw [writeBack_dirty { s with replacer_ := r1 } f hdirty]
    simp [DiskManager.ReadPage, DiskManager.WritePage, hid, hdata, upd, Page.ResetMemory]

/-- Claim C6: In a reachable state `DeletePage(p)` has three outcomes.  If `p` is not in
the page table it returns true and the state (disk calls included) is unchanged.  If
`p` is resident in a frame with a pin count other than 0 it returns false and the
state is unchanged.  Otherwise it returns true, and afterwards `p` is not in the page
table, its frame is not in the replacer, the frame has `page_id = INVALID_PAGE_ID`,
`pin_count = 0`, `is_dirty = false` and a zeroed payload, and is on the free list. -/
theorem DeletePage_outcomes (s : BufferPoolManager D) (p : page_id_t) (h : Reachable s) :
    (mapFind p s.page_table_ = none → s.DeletePage p = (true, s)) ∧
    (∀ f, mapFind p s.page_table_ = some f → (s.pages_ f).pin_count_ ≠ 0 →
      s.DeletePage p = (false, s)) ∧
    (∀ f, mapFind p s.page_table_ = some f → (s.pages_ f).pin_count_ = 0 →
      (s.DeletePage p).1 = true ∧
      mapFind p (s.DeletePage p).2.page_table_ = none ∧
      f ∉ (s.DeletePage p).2.replacer_.lst ∧
      ((s.DeletePage p).2.pages_ f).page_id_ = INVALID_PAGE_ID ∧
      ((s.DeletePage p).2.pages_ f).pin_count_ = 0 ∧
      ((s.DeletePage p).2.pages_ f).is_dirty_ = false ∧
      ((s.DeletePage p).2.pages_ f).data_ = 0 ∧
      f ∈ (s.DeletePage p).2.free_list_) := by
  refine ⟨?_, ?_, ?_⟩
  · intro hf
    simp [DeletePage, hf]
  · intro f hf hpin
    simp [DeletePage, hf, hpin]
  · intro f hf hpin
    have hnd := h.inv.repl_nodup
    simp only [DeletePage, hf, hpin, ne_eq, not_true_eq_false, if_false, LRUReplacer.Erase_lst,
      mapFind_mapErase, if_true, upd_same, Page.ResetMemory, List.mem_append,
      List.mem_singleton, or_true, and_true, true_and]
    intro hmem
    exact ((hnd.mem_erase_iff).1 hmem).1 rfl

/-- Claim C7: In a reachable state `UnpinPage(p, d)` returns false and leaves the state
unchanged when `p` is not in the page table or its frame has a pin count of 0 or
less.  Otherwise it returns true, the pin count of the frame goes down by exactly 1,
no other frame changes, the page table and the free list are unchanged, and the
frame is in the replacer afterwards if and only if its new pin count is 0. -/
theorem UnpinPage_accounting (s : BufferPoolManager D) (p : page_id_t) (d : Bool)
    (h : Reachable s) :
    (mapFind p s.page_table_ = none → s.UnpinPage p d = (false, s)) ∧
    (∀ f, mapFind p s.page_table_ = some f → (s.pages_ f).pin_count_ ≤ 0 →
      s.UnpinPage p d = (false, s)) ∧
    (∀ f, mapFind p s.page_table_ = some f → 0 < (s.pages_ f).pin_count_ →
      (s.UnpinPage p d).1 = true ∧
      ((s.UnpinPage p d).2.pages_ f).pin_count_ = (s.pages_ f).pin_count_ - 1 ∧
      (∀ i, i ≠ f → (s.UnpinPage p d).2.pages_ i = s.pages_ i) ∧
      (s.UnpinPage p d).2.page_table_ = s.page_table_ ∧
      (s.UnpinPage p d).2.free_list_ = s.free_list_ ∧
      (f ∈ (s.UnpinPage p d).2.replacer_.lst ↔
        ((s.UnpinPage p d).2.pages_ f).pin_count_ = 0)) := by
  refine ⟨?_, ?_, ?_⟩
  · intro hf
    simp [UnpinPage, hf]
  · intro f hf hpin
    simp [UnpinPage, hf, hpin]
  · intro f hf hpin
    have hlt := (h.inv.table p f hf).1
    have hnr : f ∉ s.replacer_.lst := by
      intro hr
      have := (h.inv.idle_iff f hlt).1 (Or.inr hr)
      omega
    have hn : ¬ (s.pages_ f).pin_count_ ≤ 0 := by omega
    simp only [UnpinPage, hf, hn, if_false, upd_same, true_and]
    refine ⟨?_, ?_⟩
    · intro i hi
      exact upd_other _ _ _ _ hi
    · split
      · rename_i h0
        simp [LRUReplacer.Insert_lst, h0]
      · rename_i h0
        simp [h0, hnr]

/-! ## Round trip: the page stays resident -/

end BufferPoolManager

namespace BufferPoolManager

/-! ## The claims at concrete pools -/

theorem poolOneDirty_reachable : Reachable poolOneDirty :=
  ⟨1, DiskManager.init, [Op.new, Op.write 0 7, Op.unpin 0 true], rfl⟩

theorem dirty_victim_written_back_witness :
    poolOneDirty.NewPage.1 = some (1, 0) ∧
    poolOneDirty.NewPage.2.disk_manager_.calls =
      poolOneDirty.disk_manager_.calls ++ [DiskCall.WritePage 0 7, DiskCall.AllocatePage 1] ∧
    poolOneDirty.NewPage.2.disk_manager_.content 0 = 7 ∧
    (poolOneDirty.FetchPage 5).1 = some 0 ∧
    (poolOneDirty.FetchPage 5).2.disk_manager_.calls =
      poolOneDirty.disk_manager_.calls ++ [DiskCall.WritePage 0 7, DiskCall.ReadPage 5] ∧
    (poolOneDirty.FetchPage 5).2.disk_manager_.content 0 = 7 :=
  ⟨rfl,
   ((dirty_victim_written_back poolOneDirty 0 0 7 poolOneDirty_reachable rfl rfl rfl).1 1
      rfl).1,
   ((dirty_victim_written_back poolOneDirty 0 0 7 poolOneDirty_reachable rfl rfl rfl).1 1
      rfl).2.1,
   rfl,
   ((dirty_victim_written_back poolOneDirty 0 0 7 poolOneDirty_reachable rfl rfl rfl).2 5
      (by decide) rfl rfl).1,
   ((dirty_victim_written_back poolOneDirty 0 0 7 poolOneDirty_reachable rfl rfl rfl).2 5
      (by decide) rfl rfl).2.1⟩

theorem DeletePage_outcomes_witness :
    mapFind 0 poolOneDirty.page_table_ = some 0 ∧
    (poolOneDirty.pages_ 0).pin_count_ = 0 ∧
    (poolOneDirty.DeletePage 0).1 = true ∧
    mapFind 0 (poolOneDirty.DeletePage 0).2.page_table_ = none ∧
    0 ∉ (poolOneDirty.DeletePage 0).2.replacer_.lst ∧
    ((poolOneDirty.DeletePage 0).2.pages_ 0).page_id_ = INVALID_PAGE_ID ∧
    ((poolOneDirty.DeletePage 0).2.pages_ 0).pin_count_ = 0 ∧
    ((poolOneDirty.DeletePage 0).2.pages_ 0).is_dirty_ = false ∧
    ((poolOneDirty.DeletePage 0).2.pages_ 0).data_ = 0 ∧
    0 ∈ (poolOneDirty.DeletePage 0).2.free_list_ :=
  ⟨rfl, rfl, (DeletePage_outcomes poolOneDirty 0 poolOneDirty_reachable).2.2 0 rfl rfl⟩

theorem UnpinPage_accounting_witness :
    mapFind 0 (run poolOne [Op.new]).page_table_ = some 0 ∧
    ((run poolOne [Op.new]).pages_ 0).pin_count_ = 1 ∧
    ((run poolOne [Op.new]).UnpinPage 0 true).1 = true ∧
    (((run poolOne [Op.new]).UnpinPage 0 true).2.pages_ 0).pin_count_ =
      ((run poolOne [Op.new]).pages_ 0).pin_count_ - 1 ∧
    (∀ i, i ≠ 0 →
      ((run poolOne [Op.new]).UnpinPage 0 true).2.pages_ i = (run poolOne [Op.new]).pages_ i) ∧
    ((run poolOne [Op.new]).UnpinPage 0 true).2.page_table_ = (run poolOne [Op.new]).page_table_ ∧
    ((run poolOne [Op.new]).UnpinPage 0 true).2.free_list_ = (run poolOne [Op.new]).free_list_ ∧
    (0 ∈ ((run poolOne [Op.new]).UnpinPage 0 true).2.replacer_.lst ↔
      (((run poolOne [Op.new]).UnpinPage 0 true).2.pages_ 0).pin_count_ = 0) :=
  ⟨rfl, rfl,
   (UnpinPage_accounting (run poolOne [Op.new]) 0 true
      ⟨1, DiskManager.init, [Op.new], rfl⟩).2.2 0 rfl (by decide)⟩

/-- The round trip needs an id that no frame carries.  In a pool of three frames,
page 0 is fetched before it was allocated and unpinned dirty, and page 5 is fetched and
unpinned.  `NewPage` then returns the id 0 in frame 2; the payload 7 is written and
`UnpinPage(0, true)` returns true.  The next `NewPage` reuses the stale frame 0: it
writes the stale payload to page 0 and removes page 0 from the page table.
`FetchPage(0)` then misses, reuses frame 1 and reads the stale payload 0. -/
theorem roundtrip_stale_frame :
    (run poolThree [Op.fetch 0, Op.fetch 5, Op.unpin 0 true, Op.unpin 5 false]).NewPage.1
      = some (0, 2) ∧
    ((run poolThree [Op.fetch 0, Op.fetch 5, Op.unpin 0 true, Op.unpin 5 false, Op.new,
      Op.write 2 7]).UnpinPage 0 true).1 = true ∧
    ((run poolThree [Op.fetch 0, Op.fetch 5, Op.unpin 0 true, Op.unpin 5 false, Op.new,
      Op.write 2 7, Op.unpin 0 true, Op.new]).FetchPage 0).1 = some 1 ∧
    (((run poolThree [Op.fetch 0, Op.fetch 5, Op.unpin 0 true, Op.unpin 5 false, Op.new,
      Op.write 2 7, Op.unpin 0 true, Op.new]).FetchPage 0).2.pages_ 1).data_ = 0 :=
  ⟨rfl, rfl, rfl, rfl⟩

end BufferPoolManager

namespace LRUReplacer

variable {T : Type} [DecidableEq T]

/-! ## LRU replacer: victim order -/

theorem run_append (r : LRUReplacer T) (ops1 ops2 : List (LRUOp T)) :
    run r (ops1 ++ ops2) = run (run r ops1) ops2 := by
  simp [run, List.foldl_append]

theorem run_cons (r : LRUReplacer T) (op : LRUOp T) (ops : List (LRUOp T)) :
    run r (op :: ops) = run (r.step op) ops := rfl

omit [DecidableEq T] in
theorem Victim_snd_lst (r : LRUReplacer T) : r.Victim.2.lst = r.lst.dropLast := by
  unfold Victim
  cases h : r.lst.getLast? with
  | none =>
    have : r.lst = [] := by simpa using h
    simp [this]
  | some v => rfl

theorem step_sublist (r : LRUReplacer T) (op : LRUOp T) (v : T) (hv : v ∈ (r.step op).lst) :
    v ∈ r.lst ∨ op = LRUOp.insert v := by
  cases op with
  | insert w =>
    simp only [step, Insert_lst, List.mem_cons] at hv
    rcases hv with rfl | hv
    · exact Or.inr rfl
    · exact Or.inl (List.mem_of_mem_erase hv)
  | victim =>
    simp only [step, Victim_snd_lst] at hv
    exact Or.inl ((List.dropLast_sublist _).subset hv)
  | erase w =>
    simp only [step, Erase_lst] at hv
    exact Or.inl (List.mem_of_mem_erase hv)

theorem step_nodup (r : LRUReplacer T) (op : LRUOp T) (h : r.lst.Nodup) :
    (r.step op).lst.Nodup := by
  cases op with
  | insert w =>
    simp only [step, Insert_lst]
    exact List.nodup_cons.2 ⟨fun hm => (h.mem_erase_iff.1 hm).1 rfl, h.erase _⟩
  | victim =>
    simp only [step, Victim_snd_lst]
    exact h.sublist (List.dropLast_sublist _)
  | erase w =>
    simp only [step, Erase_lst]
    exact h.erase _

theorem run_nodup (r : LRUReplacer T) (ops : List (LRUOp T)) (h : r.lst.Nodup) :
    (run r ops).lst.Nodup := by
  induction ops generalizing r with
  | nil => exact h
  | cons op rest ih => exact ih _ (step_nodup r op h)

theorem Reachable.nodup {r : LRUReplacer T} (h : Reachable r) : r.lst.Nodup := by
  obtain ⟨ops, rfl⟩ := h
  exact run_nodup _ ops (by simp [init])

omit [DecidableEq T] in
theorem victims_eq (n : Nat) (r : LRUReplacer T) : victims n r = r.lst.reverse.take n := by
  induction n generalizing r with
  | zero => simp [victims]
  | succ n ih =>
    unfold victims
    cases h : r.Victim with
    | mk o r1 =>
      cases o with
      | none =>
        have := (Victim_none r).1 (by rw [h])
        simp [this]
      | some v =>
        have hl := Victim_some r v r1 h
        simp only [ih, hl, List.reverse_append, List.reverse_cons, List.reverse_nil,
          List.nil_append, List.singleton_append, List.take_succ_cons]

omit [DecidableEq T] in
theorem victims_Size (r : LRUReplacer T) : victims r.Size r = r.lst.reverse := by
  rw [victims_eq, Size, ← List.length_reverse]
  exact List.take_length _

theorem erase_eq_filter_of_nodup (l : List T) (v : T) (h : l.Nodup) :
    l.erase v = l.filter (fun u => decide (u ≠ v)) := by
  rw [h.erase_eq_filter]
  congr 1
  funext u
  by_cases e : u = v <;> simp [bne, e]

end LRUReplacer

namespace LRUReplacer

variable {T : Type} [DecidableEq T]

/-- Claim C13: On a reachable replacer `Insert(v)` of a tracked `v` leaves `Size`
unchanged, keeps the order in which `Victim` returns the other identifiers, and makes
`v` the last identifier that `Victim` returns; after `Size` calls `Victim` returns
nothing more. -/
theorem Insert_tracked_refreshes (r : LRUReplacer T) (v : T) (h : Reachable r)
    (hv : v ∈ r.lst) :
    (r.Insert v).Size = r.Size ∧
    (victims (r.Insert v).Size (r.Insert v)).filter (fun u => decide (u ≠ v)) =
      (victims r.Size r).filter (fun u => decide (u ≠ v)) ∧
    (victims (r.Insert v).Size (r.Insert v)).getLast? = some v ∧
    victims ((r.Insert v).Size + 1) (r.Insert v) = victims (r.Insert v).Size (r.Insert v) := by
  have hnd := h.nodup
  refine ⟨?_, ?_, ?_, ?_⟩
  · simp only [Size, Insert_lst, List.length_cons, List.length_erase_of_mem hv]
    have : 0 < r.lst.length := List.length_pos_of_mem hv
    omega
  · rw [victims_Size, victims_Size, Insert_lst, erase_eq_filter_of_nodup _ _ hnd]
    simp [List.filter_filter]
  · rw [victims_Size, Insert_lst]
    simp
  · rw [victims_eq, victims_eq]
    simp only [Size]
    rw [List.take_of_length_le (by simp), List.take_of_length_le (by simp)]

theorem Insert_tracked_refreshes_witness :
    (run (init : LRUReplacer Nat) [LRUOp.insert 1, LRUOp.insert 2, LRUOp.insert 3]).Size = 3 ∧
    victims 3 (run (init : LRUReplacer Nat) [LRUOp.insert 1, LRUOp.insert 2, LRUOp.insert 3])
      = [1, 2, 3] ∧
    ((run (init : LRUReplacer Nat) [LRUOp.insert 1, LRUOp.insert 2, LRUOp.insert 3]).Insert
      1).Size = 3 ∧
    victims 4 ((run (init : LRUReplacer Nat)
      [LRUOp.insert 1, LRUOp.insert 2, LRUOp.insert 3]).Insert 1) = [2, 3, 1] ∧
    (victims ((run (init : LRUReplacer Nat)
      [LRUOp.insert 1, LRUOp.insert 2, LRUOp.insert 3]).Insert 1).Size
      ((run (init : LRUReplacer Nat)
        [LRUOp.insert 1, LRUOp.insert 2, LRUOp.insert 3]).Insert 1)).getLast? = some 1 :=
  ⟨rfl, rfl, rfl, rfl,
   (Insert_tracked_refreshes
      (run (init : LRUReplacer Nat) [LRUOp.insert 1, LRUOp.insert 2, LRUOp.insert 3]) 1
      ⟨[LRUOp.insert 1, LRUOp.insert 2, LRUOp.insert 3], rfl⟩ (by decide)).2.2.1⟩

/-- Claim C14: On a reachable replacer `Erase(v)` returns true exactly when `v` is
tracked; afterwards `v` is not tracked, `Size` is one less when it returned true and
unchanged when it returned false, and `Victim` returns the other identifiers in the
order it did before. -/
theorem Erase_spec (r : LRUReplacer T) (v : T) (h : Reachable r) :
    ((r.Erase v).1 = true ↔ v ∈ r.lst) ∧
    v ∉ (r.Erase v).2.lst ∧
    ((r.Erase v).1 = true → (r.Erase v).2.Size + 1 = r.Size) ∧
    ((r.Erase v).1 = false → (r.Erase v).2.Size = r.Size) ∧
    victims (r.Erase v).2.Size (r.Erase v).2 =
      (victims r.Size r).filter (fun u => decide (u ≠ v)) := by
  have hnd := h.nodup
  refine ⟨?_, ?_, ?_, ?_, ?_⟩
  · simp [Erase_fst]
  · rw [Erase_lst]
    exact fun hm => (hnd.mem_erase_iff.1 hm).1 rfl
  · intro ht
    have hv : v ∈ r.lst := by simpa [Erase_fst] using ht
    simp only [Size, Erase_lst, List.length_erase_of_mem hv]
    have : 0 < r.lst.length := List.length_pos_of_mem hv
    omega
  · intro hf
    have hv : v ∉ r.lst := by simpa [Erase_fst] using hf
    simp only [Size, Erase_lst, List.erase_of_not_mem hv]
  · rw [victims_Size, victims_Size, Erase_lst, erase_eq_filter_of_nodup _ _ hnd]
    simp

theorem Erase_spec_witness :
    ((run (init : LRUReplacer Nat) [LRUOp.insert 1, LRUOp.insert 2, LRUOp.insert 3]).Erase 2).1
      = true ∧
    ((run (init : LRUReplacer Nat)
      [LRUOp.insert 1, LRUOp.insert 2, LRUOp.insert 3]).Erase 2).2.Size + 1 = 3 ∧
    victims 2 ((run (init : LRUReplacer Nat)
      [LRUOp.insert 1, LRUOp.insert 2, LRUOp.insert 3]).Erase 2).2 = [1, 3] ∧
    2 ∉ ((run (init : LRUReplacer Nat)
      [LRUOp.insert 1, LRUOp.insert 2, LRUOp.insert 3]).Erase 2).2.lst :=
  ⟨rfl, rfl, rfl,
   (Erase_spec (run (init : LRUReplacer Nat) [LRUOp.insert 1, LRUOp.insert 2, LRUOp.insert 3]) 2
      ⟨[LRUOp.insert 1, LRUOp.insert 2, LRUOp.insert 3], rfl⟩).2.1⟩

end LRUReplacer

namespace LRUReplacer

variable {T : Type} [DecidableEq T]

/-! ## LRU replacer: the time of the last insert -/

theorem lastInsert_snoc (ops : List (LRUOp T)) (op : LRUOp T) (v : T) :
    lastInsert (ops ++ [op]) v =
      if op = LRUOp.insert v then ops.length + 1 else lastInsert ops v := by
  unfold lastInsert
  rw [List.reverse_append, List.reverse_singleton, List.singleton_append, List.length_append,
    List.length_singleton]
  by_cases h : op = LRUOp.insert v
  · subst h
    rw [List.indexOf_cons_self]
    simp
  · rw [List.indexOf_cons_ne _ (fun e => h e), if_neg h]
    omega

theorem lastInsert_le (ops : List (LRUOp T)) (v : T) : lastInsert ops v ≤ ops.length := by
  unfold lastInsert
  omega

theorem lastInsert_append_of_not_mem (h ops : List (LRUOp T)) (v : T)
    (hn : LRUOp.insert v ∉ ops) : lastInsert (h ++ ops) v = lastInsert h v := by
  induction ops using List.reverseRecOn with
  | nil => simp
  | append_singleton l op ih =>
    rw [← List.append_assoc, lastInsert_snoc]
    have h1 : op ≠ LRUOp.insert v := fun e => hn (by simp [e])
    rw [if_neg h1]
    exact ih (fun hm => hn (List.mem_append_left _ hm))

theorem lastInsert_append_of_mem (h ops : List (LRUOp T)) (v : T)
    (hm : LRUOp.insert v ∈ ops) : h.length < lastInsert (h ++ ops) v := by
  induction ops using List.reverseRecOn with
  | nil => simp at hm
  | append_singleton l op ih =>
    rw [← List.append_assoc, lastInsert_snoc]
    by_cases h1 : op = LRUOp.insert v
    · rw [if_pos h1]
      simp
      omega
    · rw [if_neg h1]
      apply ih
      rcases List.mem_append.1 hm with hm | hm
      · exact hm
      · simp only [List.mem_singleton] at hm
        exact absurd hm.symm h1

/-- After a history of calls on a fresh replacer every tracked identifier was
inserted, and the list holds the identifiers by decreasing time of their last insert. -/
theorem stamped_run (ops : List (LRUOp T)) :
    (∀ u ∈ (run init ops).lst, 0 < lastInsert ops u) ∧
    (run init ops).lst.Pairwise (fun u w => lastInsert ops w < lastInsert ops u) := by
  induction ops using List.reverseRecOn with
  | nil => simp [run, init]
  | append_singleton l op ih =>
    obtain ⟨h1, h2⟩ := ih
    have hnd : (run init l).lst.Nodup := run_nodup _ l (by simp [init])
    rw [run_append]
    show (∀ u ∈ ((run init l).step op).lst, _) ∧ List.Pairwise _ ((run init l).step op).lst
    cases op with
    | insert v =>
      simp only [step, Insert_lst]
      have hne : ∀ u ∈ (run init l).lst.erase v, u ≠ v :=
        fun u hu => (hnd.mem_erase_iff.1 hu).1
      have hst : ∀ u ∈ (run init l).lst.erase v,
          lastInsert (l ++ [LRUOp.insert v]) u = lastInsert l u := by
        intro u hu
        rw [lastInsert_snoc, if_neg]
        intro e
        exact hne u hu (LRUOp.insert.inj e).symm
      constructor
      · intro u hu
        rcases List.mem_cons.1 hu with rfl | hu
        · rw [lastInsert_snoc, if_pos rfl]; omega
        · rw [hst u hu]; exact h1 u (List.mem_of_mem_erase hu)
      · rw [List.pairwise_cons]
        constructor
        · intro u hu
          rw [hst u hu, lastInsert_snoc, if_pos rfl]
          have := lastInsert_le l u
          omega
        · have h3 := h2.sublist (List.erase_sublist v (run init l).lst)
          refine h3.imp_of_mem ?_
          intro u w hu hw huw
          rw [hst u hu, hst w hw]
          exact huw
    | victim =>
      have hst : ∀ u, lastInsert (l ++ [LRUOp.victim]) u = lastInsert l u := by
        intro u
        rw [lastInsert_snoc, if_neg (by simp)]
      simp only [step, Victim_snd_lst, hst]
      exact ⟨fun u hu => h1 u ((List.dropLast_sublist _).subset hu),
        h2.sublist (List.dropLast_sublist _)⟩
    | erase v =>
      have hst : ∀ u, lastInsert (l ++ [LRUOp.erase v]) u = lastInsert l u := by
        intro u
        rw [lastInsert_snoc, if_neg (by simp)]
      simp only [step, Erase_lst, hst]
      exact ⟨fun u hu => h1 u (List.mem_of_mem_erase hu),
        h2.sublist (List.erase_sublist _ _)⟩

/-- An identifier that is tracked and not erased is still tracked or was returned by
a `Victim` call. -/
theorem tracked_or_output (r : LRUReplacer T) (ops : List (LRUOp T)) (a : T)
    (ha : a ∈ r.lst) (hops : ∀ op ∈ ops, op ≠ LRUOp.erase a) :
    a ∈ (run r ops).lst ∨ some a ∈ outputs r ops := by
  induction ops generalizing r with
  | nil => exact Or.inl ha
  | cons op rest ih =>
    have hrest : ∀ o ∈ rest, o ≠ LRUOp.erase a :=
      fun o ho => hops o (List.mem_cons_of_mem _ ho)
    rw [run_cons]
    cases op with
    | insert v =>
      have ha2 : a ∈ (r.step (LRUOp.insert v)).lst := by
        simp only [step, Insert_lst, List.mem_cons]
        by_cases e : a = v
        · exact Or.inl e
        · exact Or.inr ((List.mem_erase_of_ne e).2 ha)
      simpa [outputs] using ih _ ha2 hrest
    | victim =>
      cases hv : r.Victim with
      | mk o r1 =>
        cases o with
        | none =>
          have := (Victim_none r).1 (by rw [hv])
          rw [this] at ha
          simp at ha
        | some v =>
          have hl := Victim_some r v r1 hv
          by_cases e : a = v
          · right
            simp [outputs, hv, e]
          · have ha2 : a ∈ (r.step LRUOp.victim).lst := by
              simp only [step, hv]
              rw [hl] at ha
              simpa [e] using ha
            rcases ih _ ha2 hrest with h | h
            · exact Or.inl h
            · right
              simp only [outputs, List.mem_cons]
              exact Or.inr h
    | erase v =>
      have hne : v ≠ a := fun e => hops (LRUOp.erase v) (List.mem_cons_self _ _) (by rw [e])
      have ha2 : a ∈ (r.step (LRUOp.erase v)).lst := by
        simp only [step, Erase_lst]
        exact (List.mem_erase_of_ne (fun e => hne e.symm)).2 ha
      simpa [outputs] using ih _ ha2 hrest

/-- Claim C12: Let `Insert(a)` be called on a reachable replacer and be followed by
calls among which is `Insert(b)`, `b` other than `a`, and none is `Insert(a)` or
`Erase(a)`.  If the next `Victim` call returns `b`, then a `Victim` call after the
`Insert(a)` has returned `a` before.  `Victim` on an empty replacer returns false and
leaves it empty.  When `Victim` returns `v` after a history of calls on a fresh
replacer, `v` was the last element of the list, is tracked no more while all others
are, and the last `Insert` of every other tracked identifier is later than the last
`Insert(v)`. -/
theorem Victim_order (ops0 ops : List (LRUOp T)) (a b : T) (hab : a ≠ b)
    (hops : ∀ op ∈ ops, op ≠ LRUOp.insert a ∧ op ≠ LRUOp.erase a)
    (hb : LRUOp.insert b ∈ ops) :
    ((run init (ops0 ++ LRUOp.insert a :: ops)).Victim.1 = some b →
      some a ∈ outputs (run init (ops0 ++ [LRUOp.insert a])) ops) ∧
    (∀ r : LRUReplacer T, r.lst = [] → r.Victim = (none, r)) ∧
    (∀ (v : T) (r1 : LRUReplacer T), (run init ops0).Victim = (some v, r1) →
      (run init ops0).lst = r1.lst ++ [v] ∧ v ∉ r1.lst ∧
      ∀ u ∈ r1.lst, lastInsert ops0 v < lastInsert ops0 u) := by
  refine ⟨?_, ?_, ?_⟩
  · intro hv
    have hsplit : ops0 ++ LRUOp.insert a :: ops = (ops0 ++ [LRUOp.insert a]) ++ ops := by simp
    obtain ⟨-, hp⟩ := stamped_run (ops0 ++ LRUOp.insert a :: ops)
    cases hvv : (run init (ops0 ++ LRUOp.insert a :: ops)).Victim with
    | mk o r1 =>
      rw [hvv] at hv
      simp only at hv
      subst hv
      have hl := Victim_some _ b r1 hvv
      have hstart : a ∈ (run init (ops0 ++ [LRUOp.insert a])).lst := by
        rw [run_append]
        show a ∈ ((run init ops0).Insert a).lst
        rw [Insert_lst]
        exact List.mem_cons_self _ _
      rcases tracked_or_output _ ops a hstart (fun op ho => (hops op ho).2) with h | h
      · exfalso
        rw [← run_append, ← hsplit, hl] at h
        have ha1 : a ∈ r1.lst := by simpa [hab] using h
        rw [hl, List.pairwise_append] at hp
        have hlt := hp.2.2 a ha1 b (List.mem_singleton_self _)
        have e1 : lastInsert (ops0 ++ LRUOp.insert a :: ops) a = ops0.length + 1 := by
          rw [hsplit, lastInsert_append_of_not_mem _ _ _ (fun hm => (hops _ hm).1 rfl),
            lastInsert_snoc, if_pos rfl]
        have e2 := lastInsert_append_of_mem (ops0 ++ [LRUOp.insert a]) ops b hb
        rw [← hsplit] at e2
        simp only [List.length_append, List.length_singleton] at e2
        omega
      · exact h
  · intro r hr
    simp [Victim, hr]
  · intro v r1 hv
    have hl := Victim_some _ v r1 hv
    obtain ⟨-, hp⟩ := stamped_run ops0
    have hnd : (run init ops0).lst.Nodup := run_nodup _ ops0 (by simp [init])
    rw [hl] at hp hnd
    refine ⟨hl, ?_, ?_⟩
    · intro hm
      exact List.disjoint_of_nodup_append hnd hm (List.mem_singleton_self _)
    · intro u hu
      exact (List.pairwise_append.1 hp).2.2 u hu v (List.mem_singleton_self _)

end LRUReplacer

/-! ## Bits of directory indices -/

theorem two_pow_and_eq_zero (l i : Nat) : 2 ^ l &&& i = 0 ↔ i / 2 ^ l % 2 = 0 := by
  constructor
  · intro h
    have h1 : (2 ^ l &&& i).testBit l = false := by rw [h]; simp
    rw [Nat.testBit_and, Nat.testBit_two_pow] at h1
    simp only [decide_True, Bool.true_and] at h1
    rw [Nat.testBit_to_div_mod] at h1
    have := Nat.mod_two_eq_zero_or_one (i / 2 ^ l)
    simp at h1
    omega
  · intro h
    apply Nat.eq_of_testBit_eq
    intro j
    rw [Nat.testBit_and, Nat.testBit_two_pow, Nat.zero_testBit]
    by_cases e : l = j
    · subst e
      rw [Nat.testBit_to_div_mod]
      simp [h]
    · simp [e]

theorem mod_two_pow_succ_eq_iff (l i j : Nat) (h : i % 2 ^ l = j % 2 ^ l) :
    i % 2 ^ (l + 1) = j % 2 ^ (l + 1) ↔ i / 2 ^ l % 2 = j / 2 ^ l % 2 := by
  rw [Nat.mod_pow_succ, Nat.mod_pow_succ, h]
  constructor
  · intro e
    have e2 : 2 ^ l * (i / 2 ^ l % 2) = 2 ^ l * (j / 2 ^ l % 2) := by omega
    exact Nat.eq_of_mul_eq_mul_left (Nat.two_pow_pos l) e2
  · intro e
    rw [e]

theorem mod_two_pow_of_le (l m i j : Nat) (hlm : l ≤ m) (h : i % 2 ^ m = j % 2 ^ m) :
    i % 2 ^ l = j % 2 ^ l := by
  have hd : 2 ^ l ∣ 2 ^ m := pow_dvd_pow 2 hlm
  rw [← Nat.mod_mod_of_dvd i hd, ← Nat.mod_mod_of_dvd j hd, h]

theorem mod_mod_two_pow (l m i : Nat) (hlm : l ≤ m) : i % 2 ^ m % 2 ^ l = i % 2 ^ l :=
  Nat.mod_mod_of_dvd i (pow_dvd_pow 2 hlm)

/-! ## Keys of a `std::map` -/

section MapKeys

variable {K V : Type} [DecidableEq K]

theorem mapFind_isSome_iff (key : K) (items : List (K × V)) :
    (mapFind key items).isSome = true ↔ key ∈ items.map Prod.fst := by
  induction items with
  | nil => simp [mapFind]
  | cons kv rest ih =>
    by_cases h : kv.1 = key
    · simp [mapFind, h]
    · simp only [mapFind, h, if_false, ih, List.map_cons, List.mem_cons]
      constructor
      · exact Or.inr
      · rintro (e | e)
        · exact absurd e.symm h
        · exact e

theorem mapFind_eq_none_iff (key : K) (items : List (K × V)) :
    mapFind key items = none ↔ key ∉ items.map Prod.fst := by
  rw [← mapFind_isSome_iff]
  cases mapFind key items <;> simp

theorem mapErase_keys (key : K) (items : List (K × V)) :
    (mapErase key items).map Prod.fst = (items.map Prod.fst).filter (fun k => decide (k ≠ key)) := by
  unfold mapErase
  rw [List.filter_map]
  rfl

theorem mapErase_nodup (key : K) (items : List (K × V)) (h : (items.map Prod.fst).Nodup) :
    ((mapErase key items).map Prod.fst).Nodup := by
  rw [mapErase_keys]
  exact h.filter _

theorem mapSet_nodup (key : K) (value : V) (items : List (K × V))
    (h : (items.map Prod.fst).Nodup) : ((mapSet key value items).map Prod.fst).Nodup := by
  unfold mapSet
  rw [List.map_cons, List.nodup_cons]
  refine ⟨?_, mapErase_nodup key items h⟩
  rw [mapErase_keys]
  simp

theorem items_eq_nil_of_mapFind_none (items : List (K × V))
    (h : ∀ key, mapFind key items = none) : items = [] := by
  cases items with
  | nil => rfl
  | cons kv rest =>
    have := h kv.1
    simp [mapFind] at this

end MapKeys

namespace ExtendibleHash

variable {K V : Type} [DecidableEq K]

/-! ## The rehash loop -/

theorem rehashItem_getBucket (tb nb : Nat) (t : ExtendibleHash K V) (it : K × V) (key : K) :
    (rehashItem tb nb t it).getBucket key = t.getBucket key := by
  unfold rehashItem
  split <;> rfl

theorem rehashItem_heap_other (tb nb : Nat) (t : ExtendibleHash K V) (it : K × V) (a : Nat)
    (h1 : a ≠ tb) (h2 : a ≠ nb) : (rehashItem tb nb t it).heap a = t.heap a := by
  unfold rehashItem
  split
  · simp [upd, h1, h2]
  · rfl

theorem rehashItem_heap_tb (tb nb : Nat) (t : ExtendibleHash K V) (it : K × V)
    (hne : tb ≠ nb) :
    (rehashItem tb nb t it).heap tb =
      if t.getBucket it.1 ≠ tb then
        { t.heap tb with items := mapErase it.1 (t.heap tb).items }
      else t.heap tb := by
  unfold rehashItem
  split
  · simp [upd, hne]
  · rfl

theorem rehashItem_heap_nb (tb nb : Nat) (t : ExtendibleHash K V) (it : K × V)
    (hne : tb ≠ nb) :
    (rehashItem tb nb t it).heap nb =
      if t.getBucket it.1 ≠ tb then
        { t.heap nb with items := mapSet it.1 it.2 (t.heap nb).items }
      else t.heap nb := by
  have hne2 : nb ≠ tb := fun e => hne e.symm
  unfold rehashItem
  split
  · simp [upd, hne2]
  · rfl

theorem fold_getBucket (tb nb : Nat) (its : List (K × V)) (t : ExtendibleHash K V) (key : K) :
    (its.foldl (rehashItem tb nb) t).getBucket key = t.getBucket key := by
  induction its generalizing t with
  | nil => rfl
  | cons it rest ih => rw [List.foldl_cons, ih, rehashItem_getBucket]

theorem fold_heap_other (tb nb : Nat) (its : List (K × V)) (t : ExtendibleHash K V) (a : Nat)
    (h1 : a ≠ tb) (h2 : a ≠ nb) : (its.foldl (rehashItem tb nb) t).heap a = t.heap a := by
  induction its generalizing t with
  | nil => rfl
  | cons it rest ih => rw [List.foldl_cons, ih, rehashItem_heap_other _ _ _ _ _ h1 h2]

theorem fold_depth (tb nb : Nat) (its : List (K × V)) (t : ExtendibleHash K V) (a : Nat)
    (hne : tb ≠ nb) :
    ((its.foldl (rehashItem tb nb) t).heap a).localDepth = (t.heap a).localDepth := by
  induction its generalizing t with
  | nil => rfl
  | cons it rest ih =>
    rw [List.foldl_cons, ih]
    by_cases h1 : a = tb
    · subst h1
      rw [rehashItem_heap_tb _ _ _ _ hne]
      split <;> rfl
    · by_cases h2 : a = nb
      · subst h2
        rw [rehashItem_heap_nb _ _ _ _ hne]
        split <;> rfl
      · rw [rehashItem_heap_other _ _ _ _ _ h1 h2]

theorem fold_nodup (tb nb : Nat) (its : List (K × V)) (t : ExtendibleHash K V) (a : Nat)
    (hne : tb ≠ nb) (h : ((t.heap a).items.map Prod.fst).Nodup) :
    (((its.foldl (rehashItem tb nb) t).heap a).items.map Prod.fst).Nodup := by
  induction its generalizing t with
  | nil => exact h
  | cons it rest ih =>
    rw [List.foldl_cons]
    apply ih
    by_cases h1 : a = tb
    · subst h1
      rw [rehashItem_heap_tb _ _ _ _ hne]
      split
      · exact mapErase_nodup _ _ h
      · exact h
    · by_cases h2 : a = nb
      · subst h2
        rw [rehashItem_heap_nb _ _ _ _ hne]
        split
        · exact mapSet_nodup _ _ _ h
        · exact h
      · rw [rehashItem_heap_other _ _ _ _ _ h1 h2]
        exact h

/-- After the rehash loop over `its` the split bucket holds a key exactly when it held
it before and the key was not moved. -/
theorem fold_find_tb (tb nb : Nat) (its : List (K × V)) (t : ExtendibleHash K V) (key : K)
    (hne : tb ≠ nb) :
    mapFind key ((its.foldl (rehashItem tb nb) t).heap tb).items =
      if t.getBucket key ≠ tb ∧ (mapFind key its).isSome = true then none
      else mapFind key (t.heap tb).items := by
  induction its generalizing t with
  | nil => simp [mapFind]
  | cons it rest ih =>
    rw [List.foldl_cons, ih, rehashItem_getBucket, rehashItem_heap_tb _ _ _ _ hne]
    by_cases hk : it.1 = key
    · subst hk
      by_cases hm : t.getBucket it.1 ≠ tb
      · simp [hm, mapFind, mapFind_mapErase]
      · simp [hm, mapFind]
    · have hk2 : ¬ key = it.1 := fun e => hk e.symm
      by_cases hm : t.getBucket it.1 ≠ tb
      · simp [hm, mapFind, hk, hk2, mapFind_mapErase]
      · simp [hm, mapFind, hk]

/-- After the rehash loop over `its`, whose keys are distinct, the new bucket holds
the moved items on top of what it held before. -/
theorem fold_find_nb (tb nb : Nat) (its : List (K × V)) (t : ExtendibleHash K V) (key : K)
    (hne : tb ≠ nb) (hnd : (its.map Prod.fst).Nodup) :
    mapFind key ((its.foldl (rehashItem tb nb) t).heap nb).items =
      if t.getBucket key ≠ tb ∧ (mapFind key its).isSome = true then mapFind key its
      else mapFind key (t.heap nb).items := by
  induction its generalizing t with
  | nil => simp [mapFind]
  | cons it rest ih =>
    rw [List.map_cons, List.nodup_cons] at hnd
    rw [List.foldl_cons, ih _ hnd.2, rehashItem_getBucket, rehashItem_heap_nb _ _ _ _ hne]
    by_cases hk : it.1 = key
    · subst hk
      have hrest : mapFind it.1 rest = none := (mapFind_eq_none_iff _ _).2 hnd.1
      by_cases hm : t.getBucket it.1 ≠ tb
      · simp [hm, mapFind, hrest, mapFind_mapSet]
      · simp [hm, mapFind, hrest]
    · have hk2 : ¬ key = it.1 := fun e => hk e.symm
      by_cases hm : t.getBucket it.1 ≠ tb
      · simp [hm, mapFind, hk, hk2, mapFind_mapSet]
      · simp [hm, mapFind, hk]

end ExtendibleHash

namespace ExtendibleHash

variable {K V : Type} [DecidableEq K]

/-! ## The table invariant under directory doubling -/

theorem getD_append_self (dir : List Nat) (g i : Nat) (h : dir.length = 2 ^ g)
    (hi : i < 2 ^ (g + 1)) : (dir ++ dir).getD i 0 = dir.getD (i % 2 ^ g) 0 := by
  have hpos : 0 < 2 ^ g := Nat.two_pow_pos g
  have hm : i % 2 ^ g < dir.length := by rw [h]; exact Nat.mod_lt _ hpos
  have hi2 : i < (dir ++ dir).length := by
    rw [List.length_append, h]; rw [pow_succ] at hi; omega
  rw [List.getD_eq_getElem _ _ hi2, List.getD_eq_getElem _ _ hm]
  by_cases hlt : i < 2 ^ g
  · rw [List.getElem_append_left (by rw [h]; exact hlt)]
    simp [Nat.mod_eq_of_lt hlt]
  · rw [List.getElem_append_right (by rw [h]; omega)]
    have e : i % 2 ^ g = i - 2 ^ g := by
      rw [pow_succ] at hi
      rw [Nat.mod_eq_sub_mod (by omega), Nat.mod_eq_of_lt (by omega)]
    simp [h, e]

omit [DecidableEq K] in
theorem growDirectory_cases (t : ExtendibleHash K V) (tb : Nat) :
    (growDirectory t tb = t ∧ (t.heap tb).localDepth ≠ t.globalDepth) ∨
    (growDirectory t tb = { t with bucketDirectory := t.bucketDirectory ++ t.bucketDirectory,
                                   globalDepth := t.globalDepth + 1 } ∧
      (t.heap tb).localDepth = t.globalDepth) := by
  unfold growDirectory
  split
  · exact Or.inr ⟨rfl, by assumption⟩
  · exact Or.inl ⟨rfl, by assumption⟩

theorem growDirectory_Good (t : ExtendibleHash K V) (tb : Nat) (h : Good t) :
    Good (growDirectory t tb) := by
  rcases growDirectory_cases t tb with ⟨e, _⟩ | ⟨e, _⟩
  · rw [e]; exact h
  · have hwf := growDirectory_WF t tb h.wf
    have hlen := h.wf.length_directory
    have hD : ∀ i, i < (growDirectory t tb).bucketDirectory.length →
        (growDirectory t tb).bucketDirectory.getD i 0 =
          t.bucketDirectory.getD (i % 2 ^ t.globalDepth) 0 ∧
        i % 2 ^ t.globalDepth < t.bucketDirectory.length := by
      intro i hi
      have hi2 : i < 2 ^ (t.globalDepth + 1) := by
        have := hwf.length_directory
        rw [e] at this hi
        simp only at this hi
        rw [this] at hi
        exact hi
      constructor
      · rw [e]
        exact getD_append_self _ _ _ hlen hi2
      · rw [hlen]; exact Nat.mod_lt _ (Nat.two_pow_pos _)
    have hdepth : ∀ i, i < (growDirectory t tb).bucketDirectory.length →
        (growDirectory t tb).depthAt i = t.depthAt (i % 2 ^ t.globalDepth) := by
      intro i hi
      unfold depthAt
      rw [(hD i hi).1, (growDirectory_fields t tb).1]
    have hg : (growDirectory t tb).globalDepth = t.globalDepth + 1 := by rw [e]
    constructor
    · exact hwf
    · intro i hi
      rw [hdepth i hi, hg]
      exact Nat.le_succ_of_le (h.depth_le _ (hD i hi).2)
    · intro i j hi hj
      rw [(hD i hi).1, (hD j hj).1, hdepth i hi, h.same_bucket _ _ (hD i hi).2 (hD j hj).2]
      have hle := h.depth_le _ (hD i hi).2
      rw [mod_mod_two_pow _ _ _ hle, mod_mod_two_pow _ _ _ hle]
    · intro a key hs
      rw [getBucket_growDirectory t tb key hlen]
      rw [(growDirectory_fields t tb).1] at hs
      exact h.home a key hs
    · intro a
      rw [(growDirectory_fields t tb).1]
      exact h.nodup a

omit [DecidableEq K] in
theorem growDirectory_depth_lt (t : ExtendibleHash K V) (tb : Nat)
    (hle : (t.heap tb).localDepth ≤ t.globalDepth) :
    ((growDirectory t tb).heap tb).localDepth < (growDirectory t tb).globalDepth := by
  rcases growDirectory_cases t tb with ⟨e, hne⟩ | ⟨e, heq⟩
  · rw [e]; omega
  · rw [e]; simp only; omega

omit [DecidableEq K] in
theorem growDirectory_mem (t : ExtendibleHash K V) (tb b : Nat) (hb : b ∈ t.bucketDirectory) :
    b ∈ (growDirectory t tb).bucketDirectory := by
  rcases growDirectory_cases t tb with ⟨e, _⟩ | ⟨e, _⟩
  · rw [e]; exact hb
  · rw [e]; exact List.mem_append_left _ hb

omit [DecidableEq K] in
theorem growDirectory_globalDepth_le (t : ExtendibleHash K V) (tb : Nat) :
    t.globalDepth ≤ (growDirectory t tb).globalDepth := by
  rcases growDirectory_cases t tb with ⟨e, _⟩ | ⟨e, _⟩
  · rw [e]
  · rw [e]; exact Nat.le_succ _

end ExtendibleHash

namespace ExtendibleHash

variable {K V : Type} [DecidableEq K]

/-! ## The table invariant under a bucket split -/

/-- The state after lines 108-127 of `Insert` on a table where the bucket `tb` of the
directory has a local depth below the global depth: the directory entries of `tb`
are shared between `tb` and the new bucket by one more hash bit, both buckets have
the local depth plus one, and each item of `tb` is in the bucket of the two that
`getBucket` gives for its key. -/
theorem split_core (t : ExtendibleHash K V) (tb : Nat) (h : Good t)
    (htb : tb ∈ t.bucketDirectory) :
    (∀ key, (rehash (addBucket t tb) tb t.heapSize).getBucket key =
      if t.getBucket key = tb ∧
          (1 <<< (t.heap tb).localDepth) &&& (t.HashKey key &&& ((1 <<< t.globalDepth) - 1)) ≠ 0
      then t.heapSize else t.getBucket key) ∧
    ((rehash (addBucket t tb) tb t.heapSize).heap tb).localDepth = (t.heap tb).localDepth + 1 ∧
    ((rehash (addBucket t tb) tb t.heapSize).heap t.heapSize).localDepth =
      (t.heap tb).localDepth + 1 ∧
    (∀ a, a ≠ tb → a ≠ t.heapSize →
      (rehash (addBucket t tb) tb t.heapSize).heap a = t.heap a) ∧
    (∀ key, mapFind key ((rehash (addBucket t tb) tb t.heapSize).heap tb).items =
      if (rehash (addBucket t tb) tb t.heapSize).getBucket key ≠ tb then none
      else mapFind key (t.heap tb).items) ∧
    (∀ key, mapFind key ((rehash (addBucket t tb) tb t.heapSize).heap t.heapSize).items =
      if (rehash (addBucket t tb) tb t.heapSize).getBucket key ≠ tb
      then mapFind key (t.heap tb).items else none) ∧
    (∀ a, (((rehash (addBucket t tb) tb t.heapSize).heap a).items.map Prod.fst).Nodup) := by
  have hlt : tb < t.heapSize := h.wf.allocated tb htb
  have hne : tb ≠ t.heapSize := by omega
  have hne2 : t.heapSize ≠ tb := fun e => hne e.symm
  have hX : ((addBucket t tb).heap tb).items = (t.heap tb).items := by
    simp [addBucket, upd, hne]
  have hY : ((addBucket t tb).heap t.heapSize).items = [] := by
    simp [addBucket, upd]
  have hgb : ∀ key, (rehash (addBucket t tb) tb t.heapSize).getBucket key =
      (addBucket t tb).getBucket key := fun key => getBucket_rehash _ _ _ key
  refine ⟨?_, ?_, ?_, ?_, ?_, ?_, ?_⟩
  · intro key
    rw [hgb, getBucket_addBucket t tb key h.wf]
  · unfold rehash
    rw [fold_depth _ _ _ _ _ hne]
    simp [addBucket, upd, hne]
  · unfold rehash
    rw [fold_depth _ _ _ _ _ hne]
    simp [addBucket, upd, hne]
  · intro a h1 h2
    unfold rehash
    rw [fold_heap_other _ _ _ _ _ h1 h2]
    simp [addBucket, upd, h1, h2]
  · intro key
    rw [hgb]
    unfold rehash
    rw [fold_find_tb _ _ _ _ _ hne, hX]
    by_cases hm : (addBucket t tb).getBucket key ≠ tb
    · cases hf : mapFind key (t.heap tb).items <;> simp [hm, hf]
    · simp [hm]
  · intro key
    rw [hgb]
    unfold rehash
    have hnd : (((addBucket t tb).heap tb).items.map Prod.fst).Nodup := by
      rw [hX]; exact h.nodup tb
    rw [fold_find_nb _ _ _ _ _ hne hnd, hX, hY]
    by_cases hm : (addBucket t tb).getBucket key ≠ tb
    · cases hf : mapFind key (t.heap tb).items <;> simp [hm, hf, mapFind]
    · simp [hm, mapFind]
  · intro a
    unfold rehash
    apply fold_nodup _ _ _ _ _ hne
    by_cases h1 : a = tb
    · subst h1; rw [hX]; exact h.nodup _
    · by_cases h2 : a = t.heapSize
      · subst h2; rw [hY]; simp
      · have : (addBucket t tb).heap a = t.heap a := by simp [addBucket, upd, h1, h2]
        rw [this]; exact h.nodup a

end ExtendibleHash

namespace ExtendibleHash

variable {K V : Type} [DecidableEq K]

theorem split_dir (t : ExtendibleHash K V) (tb : Nat) :
    (rehash (addBucket t tb) tb t.heapSize).bucketDirectory =
      repoint t.bucketDirectory tb t.heapSize (1 <<< (t.heap tb).localDepth) ∧
    (rehash (addBucket t tb) tb t.heapSize).bucketDirectory.length = t.bucketDirectory.length ∧
    (rehash (addBucket t tb) tb t.heapSize).globalDepth = t.globalDepth ∧
    (rehash (addBucket t tb) tb t.heapSize).heapSize = t.heapSize + 1 ∧
    (rehash (addBucket t tb) tb t.heapSize).HashKey = t.HashKey ∧
    (rehash (addBucket t tb) tb t.heapSize).bucketSizeLimit = t.bucketSizeLimit := by
  obtain ⟨h1, h2, h3, h4, h5⟩ := rehash_fields (addBucket t tb) tb t.heapSize
  refine ⟨by rw [h1]; rfl, by rw [h1]; simp [addBucket, repoint_length], by rw [h2]; rfl,
    by rw [h5]; rfl, by rw [h3]; rfl, by rw [h4]; rfl⟩

theorem split_getD (t : ExtendibleHash K V) (tb i : Nat) (hi : i < t.bucketDirectory.length) :
    (rehash (addBucket t tb) tb t.heapSize).bucketDirectory.getD i 0 =
      if t.bucketDirectory.getD i 0 = tb ∧ 2 ^ (t.heap tb).localDepth &&& i ≠ 0
      then t.heapSize else t.bucketDirectory.getD i 0 := by
  rw [(split_dir t tb).1, repoint_getD _ _ _ _ _ hi, Nat.one_shiftLeft]

theorem split_depthAt (t : ExtendibleHash K V) (tb i : Nat) (h : Good t)
    (htb : tb ∈ t.bucketDirectory) (hi : i < t.bucketDirectory.length) :
    (rehash (addBucket t tb) tb t.heapSize).depthAt i =
      if t.bucketDirectory.getD i 0 = tb then (t.heap tb).localDepth + 1 else t.depthAt i := by
  obtain ⟨-, c2, c3, c4, -, -, -⟩ := split_core t tb h htb
  have hmem : t.bucketDirectory.getD i 0 ∈ t.bucketDirectory := by
    rw [List.getD_eq_getElem _ _ hi]; exact List.getElem_mem _
  have hlt := h.wf.allocated _ hmem
  unfold depthAt
  rw [split_getD t tb i hi]
  by_cases e : t.bucketDirectory.getD i 0 = tb
  · by_cases b : 2 ^ (t.heap tb).localDepth &&& i ≠ 0
    · simp only [e, b, ne_eq, not_false_eq_true, and_self, if_true]
      exact c3
    · simp only [e, b, and_false, if_false, if_true]
      exact c2
  · simp only [e, false_and, if_false]
    rw [c4 _ e (by omega)]

theorem bit_eq_iff (l i j : Nat) :
    (i / 2 ^ l % 2 = j / 2 ^ l % 2) ↔ (2 ^ l &&& i ≠ 0 ↔ 2 ^ l &&& j ≠ 0) := by
  have hi := Nat.mod_two_eq_zero_or_one (i / 2 ^ l)
  have hj := Nat.mod_two_eq_zero_or_one (j / 2 ^ l)
  rw [ne_eq, ne_eq, two_pow_and_eq_zero, two_pow_and_eq_zero]
  omega

theorem split_Good (t : ExtendibleHash K V) (tb : Nat) (h : Good t)
    (htb : tb ∈ t.bucketDirectory) (hdepth : (t.heap tb).localDepth < t.globalDepth) :
    Good (rehash (addBucket t tb) tb t.heapSize) := by
  obtain ⟨c1, c2, c3, c4, c5, c6, c7⟩ := split_core t tb h htb
  obtain ⟨d1, d2, d3, d4, d5, d6⟩ := split_dir t tb
  have hlt : tb < t.heapSize := h.wf.allocated tb htb
  have hnb : ∀ i, i < t.bucketDirectory.length → t.bucketDirectory.getD i 0 ≠ t.heapSize := by
    intro i hi
    have hmem : t.bucketDirectory.getD i 0 ∈ t.bucketDirectory := by
      rw [List.getD_eq_getElem _ _ hi]; exact List.getElem_mem _
    have := h.wf.allocated _ hmem
    omega
  have hdtb : ∀ i, i < t.bucketDirectory.length → t.bucketDirectory.getD i 0 = tb →
      t.depthAt i = (t.heap tb).localDepth := by
    intro i _ e
    unfold depthAt
    rw [e]
  constructor
  · exact rehash_WF _ _ _ (addBucket_WF _ _ h.wf)
  · intro i hi
    rw [d2] at hi
    rw [split_depthAt t tb i h htb hi, d3]
    split
    · omega
    · exact h.depth_le i hi
  · intro i j hi hj
    rw [d2] at hi hj
    rw [split_getD t tb i hi, split_getD t tb j hj, split_depthAt t tb i h htb hi]
    by_cases ei : t.bucketDirectory.getD i 0 = tb
    · by_cases ej : t.bucketDirectory.getD j 0 = tb
      · have hold : i % 2 ^ (t.heap tb).localDepth = j % 2 ^ (t.heap tb).localDepth := by
          have := (h.same_bucket i j hi hj).1 (ei.trans ej.symm)
          rwa [hdtb i hi ei] at this
        simp only [ei, ej, true_and, if_true]
        rw [mod_two_pow_succ_eq_iff _ _ _ hold, bit_eq_iff]
        by_cases bi : 2 ^ (t.heap tb).localDepth &&& i ≠ 0 <;>
          by_cases bj : 2 ^ (t.heap tb).localDepth &&& j ≠ 0 <;>
          simp [bi, bj] <;> omega
      · simp only [ei, ej, true_and, false_and, if_false, if_true]
        constructor
        · intro e
          exfalso
          split at e
          · exact hnb j hj e.symm
          · exact ej e.symm
        · intro e
          exfalso
          have e2 := mod_two_pow_of_le _ _ _ _ (Nat.le_succ _) e
          rw [← hdtb i hi ei] at e2
          exact ej (((h.same_bucket i j hi hj).2 e2).symm.trans ei)
    · by_cases ej : t.bucketDirectory.getD j 0 = tb
      · simp only [ei, ej, true_and, false_and, if_false]
        constructor
        · intro e
          exfalso
          split at e
          · exact hnb i hi e
          · exact ei e
        · intro e
          exfalso
          exact ei (((h.same_bucket i j hi hj).2 e).trans ej)
      · simp only [ei, ej, false_and, if_false]
        exact h.same_bucket i j hi hj
  · intro a key hs
    by_cases h1 : a = tb
    · subst h1
      rw [c5] at hs
      by_contra hn
      simp [hn] at hs
    · by_cases h2 : a = t.heapSize
      · subst h2
        rw [c6] at hs
        by_cases hm : (rehash (addBucket t tb) tb t.heapSize).getBucket key ≠ tb
        · rw [if_pos hm] at hs
          have hold := h.home tb key hs
          rw [c1] at hm ⊢
          rw [hold] at hm ⊢
          split
          · rfl
          · rename_i hc
            rw [if_neg hc] at hm
            exact absurd rfl hm
        · simp [hm] at hs
      · rw [c4 a h1 h2] at hs
        have hold := h.home a key hs
        rw [c1, hold]
        simp [h1]
  · exact c7

theorem splitBucket_Good (t : ExtendibleHash K V) (tb : Nat) (h : Good t)
    (htb : tb ∈ t.bucketDirectory) : Good (splitBucket t tb) := by
  have hle : (t.heap tb).localDepth ≤ t.globalDepth := by
    obtain ⟨i, hi, e⟩ := List.getElem_of_mem htb
    have := h.depth_le i hi
    unfold depthAt at this
    rw [List.getD_eq_getElem _ _ hi, e] at this
    exact this
  unfold splitBucket
  simp only []
  exact split_Good _ tb (growDirectory_Good t tb h) (growDirectory_mem t tb tb htb)
    (growDirectory_depth_lt t tb hle)

end ExtendibleHash

namespace ExtendibleHash

variable {K V : Type} [DecidableEq K]

/-! ## The table invariant in reachable tables -/

theorem Good_init (HashKey : K → Nat) (size : Nat) :
    Good (init HashKey size : ExtendibleHash K V) := by
  constructor
  · exact ⟨by simp [init], by simp [init]⟩
  · intro i _; simp [init, depthAt]
  · intro i j hi hj
    have hi0 : i = 0 := by simpa [init] using hi
    have hj0 : j = 0 := by simpa [init] using hj
    subst hi0; subst hj0
    simp
  · intro a key hs
    simp [init, mapFind] at hs
  · intro a
    simp [init]

theorem heap_update_Good (t : ExtendibleHash K V) (a0 : Nat) (items : List (K × V))
    (h : Good t)
    (hhome : ∀ key, (mapFind key items).isSome = true → t.getBucket key = a0)
    (hnd : (items.map Prod.fst).Nodup) :
    Good { t with heap := upd t.heap a0 { t.heap a0 with items := items } } := by
  have hd : ∀ a, ((upd t.heap a0 { t.heap a0 with items := items }) a).localDepth =
      (t.heap a).localDepth := by
    intro a
    by_cases e : a = a0
    · subst e; simp [upd]
    · simp [upd, e]
  constructor
  · exact ⟨h.wf.length_directory, h.wf.allocated⟩
  · intro i hi
    have := h.depth_le i hi
    unfold depthAt at this ⊢
    simp only [hd]
    exact this
  · intro i j hi hj
    have := h.same_bucket i j hi hj
    unfold depthAt at this ⊢
    simp only [hd]
    exact this
  · intro a key hs
    show t.getBucket key = a
    by_cases e : a = a0
    · subst e
      simp only [upd, if_true] at hs
      exact hhome key hs
    · simp only [upd, e, if_false] at hs
      exact h.home a key hs
  · intro a
    by_cases e : a = a0
    · subst e
      simpa [upd] using hnd
    · simpa [upd, e] using h.nodup a

theorem addKey_Good (t : ExtendibleHash K V) (key : K) (value : V) (h : Good t) :
    Good (addKey t key value) := by
  unfold addKey
  apply heap_update_Good t _ _ h
  · intro k hs
    rw [mapFind_mapSet] at hs
    by_cases e : k = key
    · rw [e]
    · rw [if_neg e] at hs
      exact h.home _ k hs
  · exact mapSet_nodup _ _ _ (h.nodup _)

theorem Remove_Good (t : ExtendibleHash K V) (key : K) (h : Good t) :
    Good (t.Remove key).2 := by
  unfold Remove
  simp only []
  split
  · exact h
  · apply heap_update_Good t _ _ h
    · intro k hs
      rw [mapFind_mapErase] at hs
      by_cases e : k = key
      · simp [e] at hs
      · rw [if_neg e] at hs
        exact h.home _ k hs
    · exact mapErase_nodup _ _ (h.nodup _)

theorem insertLoop_Good (fuel : Nat) (t t1 : ExtendibleHash K V) (key : K)
    (h : Good t) (hl : insertLoop fuel t key = some t1) : Good t1 := by
  induction fuel generalizing t with
  | zero =>
    unfold insertLoop at hl
    split at hl
    · cases hl
    · cases hl; exact h
  | succ n ih =>
    unfold insertLoop at hl
    split at hl
    · exact ih _ (splitBucket_Good t _ h (h.wf.getBucket_mem key)) hl
    · cases hl; exact h

theorem Reachable.good {t : ExtendibleHash K V} (h : Reachable t) : Good t := by
  induction h with
  | init HashKey size hsize => exact Good_init HashKey size
  | @insert t t1 fuel key value _ hins ih =>
    obtain ⟨t2, hl, rfl⟩ := (Insert_eq_some fuel t t1 key value).1 hins
    exact addKey_Good _ _ _ (insertLoop_Good fuel _ t2 key ih hl)
  | remove key _ ih => exact Remove_Good _ key ih

/-! ## The global depth -/

theorem split_DepthMax (t : ExtendibleHash K V) (tb : Nat) (h : Good t)
    (htb : tb ∈ t.bucketDirectory)
    (hmax : DepthMax t ∨ (t.heap tb).localDepth + 1 = t.globalDepth)
    (hdepth : (t.heap tb).localDepth < t.globalDepth) :
    DepthMax (rehash (addBucket t tb) tb t.heapSize) := by
  obtain ⟨-, d2, d3, -, -, -⟩ := split_dir t tb
  unfold DepthMax
  rw [d2, d3]
  by_cases e : (t.heap tb).localDepth + 1 = t.globalDepth
  · obtain ⟨i, hi, ei⟩ := List.getElem_of_mem htb
    refine ⟨i, hi, ?_⟩
    rw [split_depthAt t tb i h htb hi, List.getD_eq_getElem _ _ hi, if_pos ei]
    exact e
  · obtain ⟨i, hi, ei⟩ := hmax.resolve_right e
    refine ⟨i, hi, ?_⟩
    rw [split_depthAt t tb i h htb hi]
    split
    · rename_i hc
      exfalso
      unfold depthAt at ei
      rw [hc] at ei
      omega
    · exact ei

theorem splitBucket_DepthMax (t : ExtendibleHash K V) (tb : Nat) (h : Good t)
    (htb : tb ∈ t.bucketDirectory) (hmax : DepthMax t) : DepthMax (splitBucket t tb) := by
  have hle : (t.heap tb).localDepth ≤ t.globalDepth := by
    obtain ⟨i, hi, e⟩ := List.getElem_of_mem htb
    have := h.depth_le i hi
    unfold depthAt at this
    rw [List.getD_eq_getElem _ _ hi, e] at this
    exact this
  unfold splitBucket
  simp only []
  apply split_DepthMax _ tb (growDirectory_Good t tb h) (growDirectory_mem t tb tb htb) ?_
    (growDirectory_depth_lt t tb hle)
  rcases growDirectory_cases t tb with ⟨e, _⟩ | ⟨e, heq⟩
  · rw [e]; exact Or.inl hmax
  · right
    rw [e]
    simp only
    omega

theorem splitBucket_globalDepth_le (t : ExtendibleHash K V) (tb : Nat) :
    t.globalDepth ≤ (splitBucket t tb).globalDepth := by
  unfold splitBucket
  simp only []
  rw [(split_dir _ tb).2.2.1]
  exact growDirectory_globalDepth_le t tb

theorem insertLoop_DepthMax (fuel : Nat) (t t1 : ExtendibleHash K V) (key : K)
    (h : Good t) (hmax : DepthMax t) (hl : insertLoop fuel t key = some t1) :
    DepthMax t1 ∧ t.globalDepth ≤ t1.globalDepth := by
  induction fuel generalizing t with
  | zero =>
    unfold insertLoop at hl
    split at hl
    · cases hl
    · cases hl; exact ⟨hmax, le_refl _⟩
  | succ n ih =>
    unfold insertLoop at hl
    split at hl
    · have hm := h.wf.getBucket_mem key
      obtain ⟨r1, r2⟩ := ih _ (splitBucket_Good t _ h hm) (splitBucket_DepthMax t _ h hm hmax) hl
      exact ⟨r1, le_trans (splitBucket_globalDepth_le t _) r2⟩
    · cases hl; exact ⟨hmax, le_refl _⟩

omit [DecidableEq K] in
theorem DepthMax_of_heap_depth (t : ExtendibleHash K V) (heap : Nat → Bucket K V)
    (hd : ∀ a, (heap a).localDepth = (t.heap a).localDepth) (hmax : DepthMax t) :
    DepthMax { t with heap := heap } := by
  obtain ⟨i, hi, e⟩ := hmax
  refine ⟨i, hi, ?_⟩
  unfold depthAt at e ⊢
  simp only [hd]
  exact e

theorem Reachable.depthMax {t : ExtendibleHash K V} (h : Reachable t) : DepthMax t := by
  induction h with
  | init HashKey size hsize =>
    exact ⟨0, by simp [ExtendibleHash.init], by simp [ExtendibleHash.init, depthAt]⟩
  | @insert t t1 fuel key value hr hins ih =>
    obtain ⟨t2, hl, rfl⟩ := (Insert_eq_some fuel t t1 key value).1 hins
    have h2 := (insertLoop_DepthMax fuel _ t2 key hr.good ih hl).1
    unfold addKey
    apply DepthMax_of_heap_depth _ _ _ h2
    intro a
    by_cases e : a = t2.getBucket key
    · subst e; simp [upd]
    · simp [upd, e]
  | @remove t key _ ih =>
    unfold Remove
    simp only []
    split
    · exact ih
    · apply DepthMax_of_heap_depth _ _ _ ih
      intro a
      by_cases e : a = t.getBucket key
      · subst e; simp [upd]
      · simp [upd, e]

end ExtendibleHash

namespace ExtendibleHash

variable {K V : Type} [DecidableEq K]

theorem tableDeep_reachable : Reachable tableDeep :=
  Reachable.insert 0 12 22
    (Reachable.insert 3 8 18
      (Reachable.insert 0 4 14
        (Reachable.insert 0 0 10 (Reachable.init id 2 (by decide)) rfl) rfl) rfl) rfl

/-- Claim C11, the code at a failing input: With bucket capacity 2 and keys hashed to
themselves, the table reached by `Insert` of 0, 4, 8 and 12 has global depth 3 and
the directory `[0, 1, 2, 1, 3, 1, 2, 1]` over four buckets, of local depths 3, 1, 2
and 3.  `GetNumBuckets` returns 5: it counts the bucket of local depth 1 at the
directory indices 1 and 5. -/
theorem GetNumBuckets_counts_twice :
    Reachable tableDeep ∧
    tableDeep.globalDepth = 3 ∧
    tableDeep.bucketDirectory = [0, 1, 2, 1, 3, 1, 2, 1] ∧
    (List.range 4).map (fun a => (tableDeep.heap a).localDepth) = [3, 1, 2, 3] ∧
    tableDeep.distinctBuckets = 4 ∧
    tableDeep.GetNumBuckets = 5 :=
  ⟨tableDeep_reachable, rfl, rfl, rfl, by decide, rfl⟩

/-- Claim C16: In a table reachable from the empty table the directory has
`2 ^ globalDepth` entries, every bucket of the directory has a local depth of at most
the global depth and one has exactly the global depth; an `Insert` that returns does
not lower the global depth and `Remove` leaves it unchanged. -/
theorem directory_shape (t : ExtendibleHash K V) (h : Reachable t) :
    t.bucketDirectory.length = 2 ^ t.globalDepth ∧
    (∀ i, i < t.bucketDirectory.length → t.depthAt i ≤ t.globalDepth) ∧
    (∃ i, i < t.bucketDirectory.length ∧ t.depthAt i = t.globalDepth) ∧
    (∀ fuel key value t1, Insert fuel t key value = some t1 →
      t.globalDepth ≤ t1.globalDepth) ∧
    (∀ key, (t.Remove key).2.globalDepth = t.globalDepth) := by
  refine ⟨h.good.wf.length_directory, h.good.depth_le, h.depthMax, ?_, ?_⟩
  · intro fuel key value t1 hins
    obtain ⟨t2, hl, rfl⟩ := (Insert_eq_some fuel t t1 key value).1 hins
    exact (insertLoop_DepthMax fuel t t2 key h.good h.depthMax hl).2
  · intro key
    unfold Remove
    simp only []
    split <;> rfl

theorem directory_shape_witness :
    tableDeep.bucketDirectory.length = 2 ^ tableDeep.globalDepth ∧
    tableDeep.globalDepth = 3 ∧
    (∀ i, i < tableDeep.bucketDirectory.length → tableDeep.depthAt i ≤ tableDeep.globalDepth) ∧
    (∃ i, i < tableDeep.bucketDirectory.length ∧ tableDeep.depthAt i = tableDeep.globalDepth) :=
  ⟨(directory_shape tableDeep tableDeep_reachable).1, rfl,
   (directory_shape tableDeep tableDeep_reachable).2.1,
   (directory_shape tableDeep tableDeep_reachable).2.2.1⟩

end ExtendibleHash

namespace ExtendibleHash

variable {K V : Type} [DecidableEq K]

/-! ## The split loop with its undefined steps -/

theorem rehashOver_eq_self (tb nb : Nat) (t : ExtendibleHash K V) (visited : List (K × V))
    (h : ∀ item ∈ visited, t.getBucket item.1 = tb) : rehashOver t tb nb visited = t := by
  unfold rehashOver
  induction visited with
  | nil => rfl
  | cons item rest ih =>
    have h1 : rehashItem tb nb t item = t := by
      unfold rehashItem
      rw [if_neg (not_not.2 (h item (List.mem_cons_self _ _)))]
    rw [List.foldl_cons, h1]
    exact ih (fun it hit => h it (List.mem_cons_of_mem _ hit))

/-- A rehash loop that is defined moves no item: it leaves the table as it is. -/
theorem rehash_eq_self (t : ExtendibleHash K V) (tb nb : Nat)
    (h : rehashDefined t tb = true) : rehash t tb nb = t := by
  unfold rehashDefined at h
  rw [List.all_eq_true] at h
  exact rehashOver_eq_self tb nb t _ (fun item hit => of_decide_eq_true (h item hit))

/-- When the loop with the undefined steps made explicit returns, it returns the table
of `insertLoop`. -/
theorem insertLoopChecked_returns (fuel : Nat) (t t1 : ExtendibleHash K V) (key : K)
    (h : insertLoopChecked fuel t key = Outcome.returns t1) :
    insertLoop fuel t key = some t1 := by
  induction fuel generalizing t with
  | zero =>
    unfold insertLoopChecked at h
    unfold insertLoop
    split at h
    · cases h
    · split at h
      · cases h
      · rename_i hf
        rw [if_neg hf]
        cases h
        rfl
  | succ fuel ih =>
    unfold insertLoopChecked at h
    unfold insertLoop
    split at h
    · cases h
    · split at h
      · rename_i hf
        rw [if_pos hf]
        simp only at h
        split at h
        · cases h
        · split at h
          · cases h
          · split at h
            · cases h
            · exact ih _ h
      · rename_i hf
        rw [if_neg hf]
        cases h
        rfl

/-- When `Insert` with the undefined steps made explicit returns, it returns the table
of `Insert`. -/
theorem InsertChecked_returns (fuel : Nat) (t t1 : ExtendibleHash K V) (key : K) (value : V)
    (h : InsertChecked fuel t key value = Outcome.returns t1) :
    Insert fuel t key value = some t1 := by
  unfold InsertChecked at h
  unfold Insert
  cases hl : insertLoopChecked fuel t key with
  | returns t2 =>
    rw [hl] at h
    rw [insertLoopChecked_returns fuel t t2 key hl]
    cases h
    rfl
  | running => rw [hl] at h; cases h
  | undefined => rw [hl] at h; cases h

theorem index_eq_zero (hash depth : Nat) (h : hash % 2 ^ 31 = 0) (hd : depth ≤ 31) :
    hash &&& ((1 <<< depth) - 1) = 0 := by
  rw [Nat.one_shiftLeft, Nat.and_pow_two_sub_one_eq_mod]
  exact Nat.mod_eq_zero_of_dvd
    (dvd_trans (pow_dvd_pow 2 hd) (Nat.dvd_of_mod_eq_zero h))

omit [DecidableEq K] in
theorem getBucket_of_index_zero (t : ExtendibleHash K V) (key k : K)
    (hkey : t.HashKey key &&& ((1 <<< t.globalDepth) - 1) = 0)
    (hk : t.HashKey k &&& ((1 <<< t.globalDepth) - 1) = 0) :
    t.getBucket k = t.getBucket key := by
  unfold getBucket
  rw [hkey, hk]

end ExtendibleHash

namespace ExtendibleHash

variable {K V : Type} [DecidableEq K]

omit [DecidableEq K] in
/-- One split of a bucket whose local depth is the global depth, below depth 31: the
keys whose hash is a multiple of `2 ^ 31` stay at directory index 0, in the bucket that
was split. -/
theorem addBucket_multiples (t : ExtendibleHash K V) (key : K) (h : WF t)
    (hdepth : (t.heap (t.getBucket key)).localDepth = t.globalDepth)
    (hg : t.globalDepth < 31) (hkey : t.HashKey key % 2 ^ 31 = 0) :
    (addBucket (growDirectory t (t.getBucket key)) (t.getBucket key)).globalDepth =
      t.globalDepth + 1 ∧
    WF (addBucket (growDirectory t (t.getBucket key)) (t.getBucket key)) ∧
    (addBucket (growDirectory t (t.getBucket key)) (t.getBucket key)).HashKey = t.HashKey ∧
    (addBucket (growDirectory t (t.getBucket key)) (t.getBucket key)).bucketSizeLimit =
      t.bucketSizeLimit ∧
    (∀ k, t.HashKey k % 2 ^ 31 = 0 →
      (addBucket (growDirectory t (t.getBucket key)) (t.getBucket key)).getBucket k =
        t.getBucket key) ∧
    ((addBucket (growDirectory t (t.getBucket key)) (t.getBucket key)).heap
      (t.getBucket key)).items = (t.heap (t.getBucket key)).items ∧
    ((addBucket (growDirectory t (t.getBucket key)) (t.getBucket key)).heap
      (t.getBucket key)).localDepth = t.globalDepth + 1 ∧
    (growDirectory t (t.getBucket key)).heapSize = t.heapSize := by
  have hm := h.getBucket_mem key
  have hlt := h.allocated _ hm
  generalize htb : t.getBucket key = tb at hm hlt hdepth ⊢
  obtain ⟨f1, f2, f3, f4⟩ := growDirectory_fields t tb
  have hwf1 := growDirectory_WF t tb h
  have hg1 : (growDirectory t tb).globalDepth = t.globalDepth + 1 := by
    unfold growDirectory
    rw [if_pos hdepth]
  have hne : t.heapSize ≠ tb := by omega
  refine ⟨?_, addBucket_WF _ tb hwf1, ?_, ?_, ?_, ?_, ?_, f2⟩
  · show (growDirectory t tb).globalDepth = _
    exact hg1
  · show (growDirectory t tb).HashKey = _
    exact f4
  · show (growDirectory t tb).bucketSizeLimit = _
    exact f3
  · intro k hk
    have hz : ∀ k2, t.HashKey k2 % 2 ^ 31 = 0 →
        (growDirectory t tb).HashKey k2 &&& ((1 <<< (growDirectory t tb).globalDepth) - 1) = 0 := by
      intro k2 hk2
      rw [f4, hg1]
      exact index_eq_zero _ _ hk2 (by omega)
    rw [getBucket_addBucket _ tb k hwf1, hz k hk]
    have hand : ∀ m : Nat, m &&& 0 = 0 := fun m => by simp
    rw [hand, if_neg (fun hc => hc.2 rfl),
      getBucket_growDirectory t tb k h.length_directory, ← htb]
    exact getBucket_of_index_zero t key k (index_eq_zero _ _ hkey (by omega))
      (index_eq_zero _ _ hk (by omega))
  · show ((upd (upd (growDirectory t tb).heap tb _) (growDirectory t tb).heapSize _) tb).items = _
    rw [f2, upd_other _ _ _ _ hne.symm, upd_same]
    rw [f1]
  · show ((upd (upd (growDirectory t tb).heap tb _) (growDirectory t tb).heapSize _) tb).localDepth = _
    rw [f2, upd_other _ _ _ _ hne.symm, upd_same]
    rw [f1]
    show (t.heap tb).localDepth + 1 = _
    rw [hdepth]

/-- The split loop when the bucket of `key` is full, has the global depth as local
depth, and `key` and the keys of the bucket all have a hash that is a multiple of
`2 ^ 31`: every split is defined up to global depth 30 and leaves the bucket full, and
the split that reaches global depth 31 calls `getBucket` with a mask that overflows
`int`. -/
theorem insertLoopChecked_multiples (fuel : Nat) (t : ExtendibleHash K V) (key : K)
    (h : WF t)
    (hfull : (t.heap (t.getBucket key)).items.length = t.bucketSizeLimit)
    (hdepth : (t.heap (t.getBucket key)).localDepth = t.globalDepth)
    (hkey : t.HashKey key % 2 ^ 31 = 0)
    (hitems : ∀ item ∈ (t.heap (t.getBucket key)).items, t.HashKey item.1 % 2 ^ 31 = 0) :
    insertLoopChecked fuel t key =
      if fuel + t.globalDepth < 31 then Outcome.running else Outcome.undefined := by
  induction fuel generalizing t with
  | zero =>
    unfold insertLoopChecked
    by_cases hg : t.globalDepth < 31
    · have hs : shiftDefined t.globalDepth = true := by simp [shiftDefined, hg]
      rw [hs]
      simp only [Bool.true_eq_false, if_false]
      rw [if_pos hfull, if_pos (by omega)]
    · have hs : shiftDefined t.globalDepth = false := by simp [shiftDefined, hg]
      rw [if_pos hs, if_neg (by omega)]
  | succ fuel ih =>
    unfold insertLoopChecked
    by_cases hg : t.globalDepth < 31
    · have hs : shiftDefined t.globalDepth = true := by simp [shiftDefined, hg]
      rw [hs]
      simp only [Bool.true_eq_false, if_false]
      rw [if_pos hfull]
      obtain ⟨a1, a2, a3, a4, a5, a6, a7, a8⟩ := addBucket_multiples t key h hdepth hg hkey
      have hl : ((growDirectory t (t.getBucket key)).heap (t.getBucket key)).localDepth =
          t.globalDepth := by
        rw [(growDirectory_fields t (t.getBucket key)).1]
        exact hdepth
      have hs1 : shiftDefined
          ((growDirectory t (t.getBucket key)).heap (t.getBucket key)).localDepth = true := by
        rw [hl]; exact hs
      simp only [hs1, Bool.true_eq_false, if_false]
      by_cases hg1 : t.globalDepth + 1 < 31
      · have hs2 : shiftDefined
            (addBucket (growDirectory t (t.getBucket key)) (t.getBucket key)).globalDepth
              = true := by
          rw [a1]; simp [shiftDefined, hg1]
        have hd : rehashDefined
            (addBucket (growDirectory t (t.getBucket key)) (t.getBucket key))
            (t.getBucket key) = true := by
          unfold rehashDefined
          rw [List.all_eq_true]
          intro item hit
          rw [a6] at hit
          exact decide_eq_true (a5 item.1 (hitems item hit))
        simp only [hs2, hd, Bool.true_eq_false, if_false]
        rw [rehash_eq_self _ _ _ hd]
        have hb := a5 key hkey
        rw [ih _ a2 (by rw [hb, a6, a4]; exact hfull) (by rw [hb, a7, a1])
          (by rw [a3]; exact hkey)
          (by
            intro item hit
            rw [hb, a6] at hit
            rw [a3]
            exact hitems item hit), a1]
        by_cases hc : fuel + 1 + t.globalDepth < 31
        · rw [if_pos hc, if_pos (by omega)]
        · rw [if_neg hc, if_neg (by omega)]
      · have hs2 : shiftDefined
            (addBucket (growDirectory t (t.getBucket key)) (t.getBucket key)).globalDepth
              = false := by
          rw [a1]; simp [shiftDefined, hg1]
        simp only [hs2, if_true]
        rw [if_neg (by omega)]
    · have hs : shiftDefined t.globalDepth = false := by simp [shiftDefined, hg]
      rw [if_pos hs, if_neg (by omega)]

/-- Claim C17, the code at a failing input: With bucket capacity 1 and keys hashed to
themselves, the table reached by `Insert(0, 10)` stores the key 0 only.  Let the hash
of `key` be a multiple of `2 ^ 31` other than 0, such as `2 ^ 31`, or
`2 ^ 64 - 2 ^ 31`, the value of `INT_MIN` as a `size_t`: it differs from the hash of
every stored key.  `Insert` of `key` never returns: its splits are defined and leave
the bucket of the key full up to global depth 30, so that with a bound of less than
31 splits the loop is still running, and the 31st split calls `getBucket` at global
depth 31, where the mask `(1 << globalDepth) - 1` overflows `int`. -/
theorem Insert_beyond_int_width :
    Reachable tableOne ∧
    tableOne.bucketSizeLimit = 1 ∧
    (∀ k, (tableOne.Find k).isSome = true → k = 0) ∧
    (∀ k, (tableOne.Find k).isSome = true → tableOne.HashKey k ≠ tableOne.HashKey (2 ^ 31)) ∧
    (∀ fuel value, InsertChecked fuel tableOne (2 ^ 31) value =
      if fuel < 31 then Outcome.running else Outcome.undefined) ∧
    (∀ fuel value t1, InsertChecked fuel tableOne (2 ^ 31) value ≠ Outcome.returns t1) ∧
    (∀ fuel value, InsertChecked fuel tableOne (2 ^ 64 - 2 ^ 31) value =
      if fuel < 31 then Outcome.running else Outcome.undefined) ∧
    (∀ key, key % 2 ^ 31 = 0 → key ≠ 0 →
      (∀ k, (tableOne.Find k).isSome = true → tableOne.HashKey k ≠ tableOne.HashKey key) ∧
      (∀ fuel value t1, InsertChecked fuel tableOne key value ≠ Outcome.returns t1)) := by
  have hdir : ∀ i, ([0] : List Nat).getD i 0 = 0 := by
    intro i
    cases i <;> rfl
  have hb : ∀ k, tableOne.getBucket k = 0 := fun k => hdir _
  have hitems : ∀ k, (tableOne.heap (tableOne.getBucket k)).items = [(0, 10)] := by
    intro k
    rw [hb]
    rfl
  have hfind : ∀ k, (tableOne.Find k).isSome = true → k = 0 := by
    intro k hk
    unfold Find at hk
    rw [hitems] at hk
    by_contra hne
    have hne2 : ¬ (0 = k) := fun e => hne e.symm
    simp [mapFind, hne2] at hk
  have hloop : ∀ key, key % 2 ^ 31 = 0 → ∀ fuel, insertLoopChecked fuel tableOne key =
      if fuel < 31 then Outcome.running else Outcome.undefined := by
    intro key hkey fuel
    have := insertLoopChecked_multiples fuel tableOne key tableOne_reachable.wf
      (by rw [hitems]; rfl) (by rw [hb]; rfl) hkey (by
        intro item hit
        rw [hitems] at hit
        simp at hit
        subst hit
        decide)
    rw [this]
    rfl
  have hins : ∀ key, key % 2 ^ 31 = 0 → ∀ fuel value, InsertChecked fuel tableOne key value =
      if fuel < 31 then Outcome.running else Outcome.undefined := by
    intro key hkey fuel value
    unfold InsertChecked
    rw [hloop key hkey]
    by_cases hc : fuel < 31
    · simp only [if_pos hc]
    · simp only [if_neg hc]
  have hnever : ∀ key, key % 2 ^ 31 = 0 → ∀ fuel value t1,
      InsertChecked fuel tableOne key value ≠ Outcome.returns t1 := by
    intro key hkey fuel value t1 hc
    rw [hins key hkey] at hc
    split at hc <;> cases hc
  refine ⟨tableOne_reachable, rfl, hfind, ?_, hins _ (by decide), hnever _ (by decide),
    hins _ (by decide), ?_⟩
  · intro k hk
    rw [hfind k hk]
    decide
  · intro key hkey hne
    refine ⟨?_, hnever key hkey⟩
    intro k hk
    rw [hfind k hk]
    exact fun e => hne e.symm

end ExtendibleHash

namespace ExtendibleHash

variable {K V : Type} [DecidableEq K]

theorem tableFour_reachable : Reachable tableFour :=
  Reachable.insert 0 5 50
    (Reachable.insert 0 6 60
      (Reachable.insert 0 2 20
        (Reachable.insert 0 3 30 (Reachable.init id 4 (by decide)) rfl) rfl) rfl) rfl

/-- Claim C15, the code at a failing input: With bucket capacity 4 and keys hashed to
themselves, the table reached by `Insert` of 3, 2, 6 and 5 has one full bucket.
`Insert(7, 70)` splits it, and the rehash loop erases the key 3 from the map that it
iterates: the call is undefined, whatever the bound on the number of splits.  When the
iterator then yields key 6 and skips key 5, the key 5 stays in the bucket of directory
index 0, whose local depth is 1: the low bit of its hash is not the low bit of the
index. -/
theorem Insert_split_misplaces_key :
    Reachable tableFour ∧
    tableFour.bucketSizeLimit = 4 ∧
    tableFour.bucketDirectory = [0] ∧
    (tableFour.heap 0).items.map Prod.fst = [5, 6, 2, 3] ∧
    tableFour.getBucket 7 = 0 ∧
    (addBucket (growDirectory tableFour 0) 0).getBucket 3 = 1 ∧
    rehashDefined (addBucket (growDirectory tableFour 0) 0) 0 = false ∧
    (∀ fuel, InsertChecked (fuel + 1) tableFour 7 70 = Outcome.undefined) ∧
    tableFourSkipped.bucketDirectory = [0, 1] ∧
    tableFourSkipped.depthAt 0 = 1 ∧
    (tableFourSkipped.heap 0).items.map Prod.fst = [5, 6, 2] ∧
    (tableFourSkipped.heap 1).items.map Prod.fst = [7, 3] ∧
    mapFind 5 (tableFourSkipped.heap (tableFourSkipped.bucketDirectory.getD 0 0)).items
      = some 50 ∧
    tableFourSkipped.HashKey 5 % 2 ^ tableFourSkipped.depthAt 0 ≠
      0 % 2 ^ tableFourSkipped.depthAt 0 :=
  ⟨tableFour_reachable, rfl, rfl, rfl, rfl, rfl, rfl, fun _ => rfl, rfl, rfl, rfl, rfl, rfl,
   by decide⟩

/-- Claim C20, the code at a failing input: With bucket capacity 4 and keys hashed to
themselves, `Find(5)` finds the value 50 in the table reached by `Insert` of 3, 2, 6
and 5.  `Insert(7, 70)` splits the full bucket, and the rehash loop erases the key 3
from the map that it iterates: the call is undefined.  When the iterator then yields
key 6 and skips key 5, the insert returns a table in which `Find(5)` finds nothing,
while `Find` finds the keys 2, 3, 6 and 7. -/
theorem Insert_split_loses_key :
    Reachable tableFour ∧
    tableFour.Find 5 = some 50 ∧
    InsertChecked 1 tableFour 7 70 = Outcome.undefined ∧
    tableFourSkipped.Find 5 = none ∧
    tableFourSkipped.getBucket 5 = 1 ∧
    mapFind 5 (tableFourSkipped.heap 0).items = some 50 ∧
    tableFourSkipped.Find 2 = some 20 ∧ tableFourSkipped.Find 3 = some 30 ∧
    tableFourSkipped.Find 6 = some 60 ∧ tableFourSkipped.Find 7 = some 70 :=
  ⟨tableFour_reachable, rfl, rfl, rfl, rfl, rfl, rfl, rfl, rfl, rfl⟩

/-- The count of `GetNumBuckets` on a table that `Insert` reaches by splits that move
no item: with bucket capacity 2 and keys hashed to themselves, `Insert` of 0, 8 and 4
returns, with three splits that are all defined, a table of global depth 3 with the
directory `[0, 1, 2, 1, 3, 1, 2, 1]` over four buckets, and `GetNumBuckets` returns
5. -/
theorem GetNumBuckets_counts_twice_defined :
    ∃ t, InsertChecked 3 (addKey (addKey (init id 2) 0 10) 8 18) 4 14 = Outcome.returns t ∧
      t.globalDepth = 3 ∧ t.bucketDirectory = [0, 1, 2, 1, 3, 1, 2, 1] ∧
      t.distinctBuckets = 4 ∧ t.GetNumBuckets = 5 :=
  ⟨_, rfl, rfl, rfl, by decide, rfl⟩

end ExtendibleHash

namespace BufferPoolManager

variable {D : Type} [Zero D]

/-! ## Frames and the page table when allocated ids are not resident -/

end BufferPoolManager

namespace BufferPoolManager

variable {D : Type} [Zero D]

end BufferPoolManager

namespace LRUReplacer

theorem Victim_order_witness :
    (run (init : LRUReplacer Nat)
      ([LRUOp.insert 3] ++ LRUOp.insert 1 :: [LRUOp.insert 2, LRUOp.victim, LRUOp.victim])).Victim.1
      = some 2 ∧
    some 1 ∈ outputs (run (init : LRUReplacer Nat) ([LRUOp.insert 3] ++ [LRUOp.insert 1]))
      [LRUOp.insert 2, LRUOp.victim, LRUOp.victim] ∧
    (run (init : LRUReplacer Nat) [LRUOp.insert 3]).Victim.1 = some 3 :=
  ⟨rfl,
   (Victim_order [LRUOp.insert 3] [LRUOp.insert 2, LRUOp.victim, LRUOp.victim] 1 2 (by decide)
      (by decide) (by decide)).1 rfl,
   rfl⟩

end LRUReplacer

end cmudb
